import Mathlib

/-!
Verification of `pkg/filesystem/virtual/remote_output_service_directory.go`
from bb-clientd.

The Go file implements `RemoteOutputServiceDirectory`: a registry of output
paths indexed by output-base ID and build ID, a build-session state machine
(StartBuild / BatchCreate / BatchStat / FinalizeBuild / Clean), a
missing-blob filtering pass run by StartBuild, and a family of path walkers.

This development shallowly embeds those pieces:

* Go maps (`outputBaseIDs`, `buildIDs`) become association lists.
* The heap of `outputPathState` objects, which the maps and the circular
  linked list reference by pointer, becomes an arena: an association list
  from numeric identifiers to `OutputPathSt` values, with the doubly-linked
  circular list `outputPaths` represented as the list `ring` of arena
  identifiers in sentinel-next order.  Fresh identifiers come from a
  counter, mirroring the fact that Go never reuses a live pointer.
* Collaborator behaviour is parametric: the content-addressable store's
  `FindMissing` is an oracle `missing : Digest → Bool`, the directory
  fetcher is `fetch : Digest → List (String × Node)`, and parsed pathnames
  arrive as lists of `PComp` (the `path` package, a collaborator, performs
  textual parsing).
* Error paths of collaborators that the claims do not exercise (e.g. a
  `removeFunc` failing, `NewDigestFromProto` rejecting a malformed proto)
  are not modelled; digests arrive already structured.
-/

namespace BBClientd

/-! ## Association lists

Go map operations, modelled on lists of key/value pairs. -/

variable {α : Type} {β : Type} {γ : Type}

/-- Go map read: `v, ok := m[k]`. -/
def lookupA [DecidableEq α] (k : α) : List (α × β) → Option β
  | [] => none
  | (k', v) :: t => if k = k' then some v else lookupA k t

/-- Go map delete: `delete(m, k)`. -/
def eraseA [DecidableEq α] (k : α) : List (α × β) → List (α × β)
  | [] => []
  | (k', v) :: t => if k' = k then eraseA k t else (k', v) :: eraseA k t

/-- Go map write: `m[k] = v`. -/
def insertA [DecidableEq α] (k : α) (v : β) (l : List (α × β)) : List (α × β) :=
  (k, v) :: eraseA k l

/-- In-place mutation of the value stored under `k` (a write through the
pointer held in a Go map). -/
def updateA [DecidableEq α] (k : α) (f : β → β) : List (α × β) → List (α × β)
  | [] => []
  | (k', v) :: t => if k' = k then (k', f v) :: updateA k f t else (k', v) :: updateA k f t

/-! ## Digests

`digest.Digest` carries an instance name, a digest function, a hash and a
size.  The claims only ever compare the instance-name/digest-function pair
(`UsesDigestFunction`), so those two are fused into one numeric token. -/

/-- A CAS digest: `fn` encodes the instance-name/digest-function pair,
`hash` the content hash, `sizeBytes` the blob size. -/
structure Digest where
  fn : Nat
  hash : Nat
  sizeBytes : Nat
deriving DecidableEq, Repr

/-- Model of `digest.Digest.UsesDigestFunction`: the digest was produced under the
given instance name and digest function. -/
def Digest.usesDigestFunction (d : Digest) (fn : Nat) : Bool :=
  d.fn = fn

/-! ## Missing-blob filter (`filterMissingChildren` / `findMissingAndRemove`)

`FilterChildren` hands the traversal one node at a time.  A node is either a
leaf, whose containing digests are known, or a directory, whose containing
digests must be fetched (`none` models the fetch reporting NotFound).  The
`removeFunc` captured per node is modelled by recording the node's numeric
identifier in `removed`. -/

/-- One node seen by `PrepopulatedDirectory.FilterChildren`. -/
inductive FNode where
  | leaf (digests : List Digest)
  | dir (digests : Option (List Digest))
deriving DecidableEq, Repr

/-- The digest closure of a node: known for leaves, fetched (and possibly
NotFound) for directories. -/
def FNode.closure : FNode → Option (List Digest)
  | .leaf ds => some ds
  | .dir o => o

/-- State threaded through the filtering pass: the queue
`map[digest.Digest][]func() error`, the list of FindMissing calls issued so
far (each the list of digests submitted), and the node identifiers whose
`removeFunc` has been invoked. -/
structure FilterSt where
  queue : List (Digest × List Nat)
  calls : List (List Digest)
  removed : List Nat
deriving DecidableEq, Repr

/-- Model of `queue[blobDigest] = append(queue[blobDigest], removeFunc)`. -/
def appendA (k : Digest) (v : Nat) : List (Digest × List Nat) → List (Digest × List Nat)
  | [] => [(k, [v])]
  | (k', vs) :: t => if k' = k then (k', vs ++ [v]) :: t else (k', vs) :: appendA k v t

/-- Model of `findMissingAndRemove`: submit every queued digest to FindMissing and
invoke the removal callbacks queued under each digest reported missing.
The queue itself is left in place; the caller resets it. -/
def findMissingAndRemove (missing : Digest → Bool) (st : FilterSt) : FilterSt :=
  { st with
    calls := st.calls ++ [st.queue.map Prod.fst]
    removed := st.removed ++ (st.queue.filter (fun p => missing p.1)).foldr (fun p acc => p.2 ++ acc) [] }

/-- The inner loop of `filterMissingChildren` queueing one node's digests:
before each digest is queued, if the queue already holds at least `T`
distinct digests (`blobstore.RecommendedFindMissingDigestsCount` in the
source) it is flushed through `findMissingAndRemove` and reset. -/
def queueNodeDigests (T : Nat) (missing : Digest → Bool) (nid : Nat) :
    List Digest → FilterSt → FilterSt
  | [], st => st
  | d :: ds, st =>
    let st' := if T ≤ st.queue.length then
        { findMissingAndRemove missing st with queue := [] }
      else st
    queueNodeDigests T missing nid ds { st' with queue := appendA d nid st'.queue }

/-- The body of the `FilterChildren` callback for one node: fetch the
closure (NotFound removes the directory outright), remove nodes whose
closure mentions a foreign instance name or digest function without queueing
anything, and otherwise queue every digest. -/
def filterStep (T : Nat) (fn : Nat) (missing : Digest → Bool)
    (st : FilterSt) (node : Nat × FNode) : FilterSt :=
  match node.2.closure with
  | none => { st with removed := st.removed ++ [node.1] }
  | some ds =>
    if ds.any (fun d => !d.usesDigestFunction fn) then
      { st with removed := st.removed ++ [node.1] }
    else
      queueNodeDigests T missing node.1 ds st

/-- Model of `filterMissingChildren`: traverse all nodes, then flush the final
partial batch if it is non-empty. -/
def filterMissingChildren (T : Nat) (fn : Nat) (missing : Digest → Bool)
    (nodes : List (Nat × FNode)) : FilterSt :=
  let st := nodes.foldl (filterStep T fn missing) ⟨[], [], []⟩
  if 0 < st.queue.length then findMissingAndRemove missing st else st

/-! ## The output-path registry

`RemoteOutputServiceDirectory`'s mutable state under `d.lock`: the change
counter, the two maps, and the sentinel-anchored circular list of
`outputPathState` objects.  Pointers become arena identifiers. -/

/-- Model of `buildState`: one active build session. -/
structure BuildSt where
  id : String
  digestFunction : Nat
  scopeWalkerFactory : Nat
deriving DecidableEq, Repr

/-- Model of `outputPathState`, minus the linked-list pointers (represented by
membership in `Registry.ring`) and the tree handles (trees live outside the
registry and are passed to operations separately). -/
structure OutputPathSt where
  buildState : Option BuildSt
  cookie : Nat
  outputBaseID : String
deriving DecidableEq, Repr

/-- The registry state guarded by `d.lock`.  `arena` is the heap of live
`outputPathState` objects (keys are stable identifiers, handed out by
`nextID` and never reused); `ring` lists the arena identifiers in the order
of the circular linked list `d.outputPaths` (sentinel-next first);
`outputBaseIDs` and `buildIDs` are the two Go maps, storing arena
identifiers where Go stores pointers. -/
structure Registry where
  changeID : Nat
  arena : List (Nat × OutputPathSt)
  ring : List Nat
  outputBaseIDs : List (String × Nat)
  buildIDs : List (String × Nat)
  nextID : Nat
deriving DecidableEq, Repr

/-- The state built by `NewRemoteOutputServiceDirectory`: empty maps, empty
ring, zero change counter. -/
def Registry.initial : Registry :=
  { changeID := 0, arena := [], ring := [], outputBaseIDs := [], buildIDs := [], nextID := 0 }

/-- gRPC status codes appearing in the file. -/
inductive RpcError where
  | invalidArgument
  | failedPrecondition
  | internal
deriving DecidableEq, Repr

/-- Model of `getOutputPathAndBuildState`: look the build ID up in `d.buildIDs`,
failing with FailedPrecondition when it is absent. -/
def getOutputPathAndBuildState (r : Registry) (buildID : String) :
    Except RpcError (Nat × Option BuildSt) :=
  match lookupA buildID r.buildIDs with
  | none => .error .failedPrecondition
  | some sid => .ok (sid, (lookupA sid r.arena).bind OutputPathSt.buildState)

/-- The `d.lock`-guarded section of `StartBuild` (lines 288–340): reuse the
state registered under the build ID; otherwise find or create the output
path for the output base, force-close a stale session, and install the new
`buildState`.  Returns the updated registry and the arena identifier of the
output path.  All request validation happens before the lock and is
represented by the already-parsed arguments. -/
def startBuildLocked (r : Registry) (buildID obID : String) (fn swf : Nat) :
    Registry × Nat :=
  match lookupA buildID r.buildIDs with
  | some sid => (r, sid)
  | none =>
    match lookupA obID r.outputBaseIDs with
    | some sid =>
      -- A previous build that was never finalized is forcefully closed.
      let r1 :=
        match (lookupA sid r.arena).bind OutputPathSt.buildState with
        | some bs =>
          { r with
            buildIDs := eraseA bs.id r.buildIDs
            arena := updateA sid (fun o => { o with buildState := none }) r.arena }
        | none => r
      let r2 :=
        { r1 with
          arena := updateA sid
            (fun o => { o with buildState := some ⟨buildID, fn, swf⟩ }) r1.arena
          buildIDs := insertA buildID sid r1.buildIDs }
      (r2, sid)
    | none =>
      -- First build for this output base: allocate a new output path,
      -- append it at the tail of the ring with cookie = d.changeID, and
      -- increment the change counter.
      let sid := r.nextID
      let ops : OutputPathSt := { buildState := none, cookie := r.changeID, outputBaseID := obID }
      let r1 :=
        { r with
          arena := r.arena ++ [(sid, ops)]
          outputBaseIDs := insertA obID sid r.outputBaseIDs
          ring := r.ring ++ [sid]
          changeID := r.changeID + 1
          nextID := r.nextID + 1 }
      let r2 :=
        { r1 with
          arena := updateA sid
            (fun o => { o with buildState := some ⟨buildID, fn, swf⟩ }) r1.arena
          buildIDs := insertA buildID sid r1.buildIDs }
      (r2, sid)

/-- Model of `StartBuild` as a whole: the locked section followed by the
missing-blob filtering pass over the output path's tree, run with the
digest function parsed from the request.  The tree contents are supplied by
the caller (they live in the `OutputPath` collaborator). -/
def startBuildModel (r : Registry) (buildID obID : String) (fn swf : Nat)
    (T : Nat) (missing : Digest → Bool) (tree : List (Nat × FNode)) :
    Registry × Nat × FilterSt :=
  let (r', sid) := startBuildLocked r buildID obID fn swf
  (r', sid, filterMissingChildren T fn missing tree)

/-- Model of `FinalizeBuild` (lines 704–717): unknown build IDs are silently
ignored; otherwise the `buildIDs` entry keyed by the session's own `id` is
deleted and the session cleared.  `none` models the nil-pointer dereference
Go would perform if the registered state carried no session (unreachable
from the initial state, see the consistency invariant). -/
def finalizeBuild (r : Registry) (buildID : String) : Option Registry :=
  match lookupA buildID r.buildIDs with
  | none => some r
  | some sid =>
    match (lookupA sid r.arena).bind OutputPathSt.buildState with
    | none => none
    | some bs =>
      some { r with
        buildIDs := eraseA bs.id r.buildIDs
        arena := updateA sid (fun o => { o with buildState := none }) r.arena }

/-- Model of `Clean` (lines 113–153), sequential semantics: when the output base is
registered, unlink the state from the ring and both maps and bump the
change counter (the recursive tree removal and the `NotifyRemoval` call are
collaborator effects outside the registry).  When it is not registered the
fallback `outputPathFactory.Clean` runs, touching no registry state. -/
def clean (r : Registry) (obID : String) : Registry :=
  match lookupA obID r.outputBaseIDs with
  | none => r
  | some sid =>
    let r1 :=
      { r with
        outputBaseIDs := eraseA obID r.outputBaseIDs
        ring := r.ring.filter (fun x => x ≠ sid)
        changeID := r.changeID + 1 }
    match (lookupA sid r.arena).bind OutputPathSt.buildState with
    | some bs =>
      { r1 with
        buildIDs := eraseA bs.id r1.buildIDs
        arena := eraseA sid r1.arena }
    | none => { r1 with arena := eraseA sid r1.arena }

/-- An entry reported by `VirtualReadDir`: the next-read cookie
(`outputPathState.cookie + 1`), the output base name, the entry's own cookie
and its arena identifier. -/
structure DirEntry where
  reported : Nat
  outputBaseID : String
  cookie : Nat
  sid : Nat
deriving DecidableEq, Repr

/-- The entries of the ring in linked-list order, resolved through the
arena. -/
def ringEntries (r : Registry) : List (Nat × OutputPathSt) :=
  r.ring.filterMap (fun sid => (lookupA sid r.arena).map (fun ops => (sid, ops)))

/-- Model of `VirtualReadDir` (lines 762–788): skip entries until the first one whose
cookie is ≥ `firstCookie`, then report the rest in ring order, each with
next-read cookie `cookie + 1`.  (The reporter's ability to stop early is a
prefix of this list.) -/
def virtualReadDir (r : Registry) (firstCookie : Nat) : List DirEntry :=
  ((ringEntries r).dropWhile (fun p => p.2.cookie < firstCookie)).map
    (fun p => ⟨p.2.cookie + 1, p.2.outputBaseID, p.2.cookie, p.1⟩)

/-- The cookie sequence along the ring, in linked-list order. -/
def ringCookies (r : Registry) : List Nat :=
  (ringEntries r).map (fun p => p.2.cookie)

/-! ## Steps and reachability

The registry-mutating operations, as a step relation. -/

/-- One registry-mutating RPC. -/
inductive Step : Registry → Registry → Prop where
  | startBuild (r : Registry) (buildID obID : String) (fn swf : Nat) :
      Step r (startBuildLocked r buildID obID fn swf).1
  | clean (r : Registry) (obID : String) :
      Step r (clean r obID)
  | finalize (r r' : Registry) (buildID : String) :
      finalizeBuild r buildID = some r' → Step r r'

/-- Registries reachable from the freshly constructed directory. -/
inductive Reachable : Registry → Prop where
  | init : Reachable Registry.initial
  | step {r r' : Registry} : Reachable r → Step r r' → Reachable r'

/-- Zero or more steps. -/
inductive StepStar : Registry → Registry → Prop where
  | refl (r : Registry) : StepStar r r
  | tail {r r' r'' : Registry} : StepStar r r' → Step r' r'' → StepStar r r''

/-! ## The registry consistency invariant -/

/-- The structural invariant tying the two maps, the arena and the ring
together.  `Registry.initial` satisfies it and every operation preserves
it. -/
structure Inv (r : Registry) : Prop where
  arenaLtNext : ∀ sid ops, lookupA sid r.arena = some ops → sid < r.nextID
  obCons : ∀ ob sid, lookupA ob r.outputBaseIDs = some sid →
    ∃ ops, lookupA sid r.arena = some ops ∧ ops.outputBaseID = ob
  obCov : ∀ sid ops, lookupA sid r.arena = some ops →
    lookupA ops.outputBaseID r.outputBaseIDs = some sid
  buildCons : ∀ b sid, lookupA b r.buildIDs = some sid →
    ∃ ops, lookupA sid r.arena = some ops ∧
      ∃ bs, ops.buildState = some bs ∧ bs.id = b
  ringArena : ∀ sid ∈ r.ring, ∃ ops, lookupA sid r.arena = some ops
  cookieLt : ∀ sid ops, lookupA sid r.arena = some ops → ops.cookie < r.changeID
  ringSorted : (ringCookies r).Pairwise (· < ·)

/-- What one or more registry steps may do to the arena: the change
counter and the identifier counter only grow, and every entry either
existed before with the same cookie and output base, or is new, with a
fresh identifier and a cookie no smaller than the old change counter. -/
def Frame (r r' : Registry) : Prop :=
  r.changeID ≤ r'.changeID ∧ r.nextID ≤ r'.nextID ∧
  ∀ sid ops', lookupA sid r'.arena = some ops' →
    (∃ ops, lookupA sid r.arena = some ops ∧
      ops'.cookie = ops.cookie ∧ ops'.outputBaseID = ops.outputBaseID) ∨
    (r.nextID ≤ sid ∧ r.changeID ≤ ops'.cookie)

/-! ## Path walkers

A parsed pathname arrives as a list of components (the textual parsing,
`.`/`..` handling included, lives in the `path` collaborator package);
`up` is a `..` step, `down` a named component. -/

/-- One parsed pathname component. -/
inductive PComp where
  | up
  | down (name : String)
deriving DecidableEq, Repr

/-- Model of `util.NonEmptyStack`: a stack that always keeps its bottom element.
`top` lists the elements above the bottom, topmost first. -/
structure NonEmptyStack (α : Type) where
  top : List α
  bottom : α
deriving DecidableEq, Repr

/-- Model of `NonEmptyStack.Peek`. -/
def NonEmptyStack.peek (s : NonEmptyStack α) : α :=
  s.top.headD s.bottom

/-- Model of `NonEmptyStack.Push`. -/
def NonEmptyStack.push (s : NonEmptyStack α) (a : α) : NonEmptyStack α :=
  { s with top := a :: s.top }

/-- Model of `NonEmptyStack.PopSingle`: fails (returns `none`) when only the bottom
element is left. -/
def NonEmptyStack.popSingle (s : NonEmptyStack α) : Option (NonEmptyStack α) :=
  match s.top with
  | [] => none
  | _ :: t => some { s with top := t }

/-- The shape of a `remoteoutputservice.FileStatus` as far as the claims
need it. -/
inductive FileStatusShape where
  | directory
  | external
  | fileLike
deriving DecidableEq, Repr

/-- The `statWalker` state relevant to `OnUp`: the directory stack, the
current `fileStatus`, and whether resolution has moved to
`path.VoidComponentWalker` (every later component is then consumed without
touching the stat state, and the continuation path is handed back to the
client). -/
structure StatWalkerSt where
  stack : NonEmptyStack Nat
  fileStatus : FileStatusShape
  voided : Bool
deriving DecidableEq, Repr

/-- Model of `statWalker.OnUp` (lines 623–631): above the root the walker reports
External and continues at `path.VoidComponentWalker` instead of failing. -/
def statWalkerOnUp (cw : StatWalkerSt) : StatWalkerSt :=
  match cw.stack.popSingle with
  | none => { cw with fileStatus := .external, voided := true }
  | some s => { cw with stack := s }

/-- Model of `directoryCreatingComponentWalker.OnUp` (lines 402–407). -/
def directoryCreatingOnUp (stack : NonEmptyStack Nat) :
    Except RpcError (NonEmptyStack Nat) :=
  match stack.popSingle with
  | none => .error .invalidArgument
  | some s => .ok s

/-- Model of `parentDirectoryCreatingComponentWalker.OnUp` (lines 448–453). -/
def parentDirectoryCreatingOnUp (stack : NonEmptyStack Nat) :
    Except RpcError (NonEmptyStack Nat) :=
  match stack.popSingle with
  | none => .error .invalidArgument
  | some s => .ok s

/-- Running `n` consecutive `OnUp` steps against the stat walker.  Once the walker
has switched to the void component walker, later steps no longer touch
it. -/
def statWalkerUps : Nat → StatWalkerSt → StatWalkerSt
  | 0, cw => cw
  | n + 1, cw => if cw.voided then cw else statWalkerUps n (statWalkerOnUp cw)

/-- Running `n` consecutive `OnUp` steps against the directory-creating walker. -/
def directoryCreatingUps : Nat → NonEmptyStack Nat → Except RpcError (NonEmptyStack Nat)
  | 0, st => .ok st
  | n + 1, st =>
    match directoryCreatingOnUp st with
    | .error e => .error e
    | .ok st' => directoryCreatingUps n st'

/-- Running `n` consecutive `OnUp` steps against the parent-directory-creating
walker. -/
def parentDirectoryCreatingUps : Nat → NonEmptyStack Nat → Except RpcError (NonEmptyStack Nat)
  | 0, st => .ok st
  | n + 1, st =>
    match parentDirectoryCreatingOnUp st with
    | .error e => .error e
    | .ok st' => parentDirectoryCreatingUps n st'

/-! ## The output path tree and `BatchCreate`

A functional model of the `PrepopulatedDirectory` tree an output path owns.
Directory handles held on walker stacks become paths from the root. -/

/-- A node of an output path's tree.  `casFile` and `casDir` are the
lazily-loaded CAS-backed leaves and subtrees that `BatchCreate`
installs. -/
inductive Node where
  | dir (entries : List (String × Node))
  | casFile (d : Digest) (isExecutable : Bool)
  | symlink (target : String)
  | casDir (treeDigest : Digest)

/-- Read the node at a path. -/
def getAt : Node → List String → Option Node
  | t, [] => some t
  | .dir es, name :: p =>
    match lookupA name es with
    | some c => getAt c p
    | none => none
  | _, _ :: _ => none

/-- Store a value under a key, keeping entry order for an existing key and
appending otherwise. -/
def upsertA [DecidableEq α] (k : α) (v : β) (l : List (α × β)) : List (α × β) :=
  match lookupA k l with
  | some _ => updateA k (fun _ => v) l
  | none => l ++ [(k, v)]

/-- The child of a directory entry list, defaulting to an empty directory. -/
def childAt (es : List (String × Node)) (name : String) : Node :=
  (lookupA name es).getD (.dir [])

/-- Replace the node at a path (the path's directories are expected to
exist, as they do on every walker stack). -/
def setAt : Node → List String → Node → Node
  | _, [], n => n
  | .dir es, name :: p, n => .dir (upsertA name (setAt (childAt es name) p n) es)
  | t, _ :: _, _ => t

/-- Model of `PrepopulatedDirectory.CreateAndEnterPrepopulatedDirectory`: enter an
existing subdirectory (materialising a CAS-backed one through the
directory fetcher), forcefully replacing any non-directory in the way by a
fresh empty directory.  Returns the updated tree and the stack with the
child pushed. -/
def createAndEnterPrepopulatedDirectory (fetch : Digest → List (String × Node))
    (t : Node) (stack : NonEmptyStack (List String)) (name : String) :
    Node × NonEmptyStack (List String) :=
  let cp := stack.peek ++ [name]
  match getAt t cp with
  | some (.dir _) => (t, stack.push cp)
  | some (.casDir d) => (setAt t cp (.dir (fetch d)), stack.push cp)
  | _ => (setAt t cp (.dir []), stack.push cp)

/-- Model of `RemoveAllChildren` on the directory at a path. -/
def removeAllChildren (t : Node) (p : List String) : Node :=
  match getAt t p with
  | some (.dir _) => setAt t p (.dir [])
  | _ => t

/-- Model of `path.Resolve` driving a `directoryCreatingComponentWalker`: every
component creates-or-enters, `..` pops, and popping past the root fails
with InvalidArgument.  The tree accumulated so far is returned even on
failure (Go mutates in place). -/
def dirCreatingResolve (fetch : Digest → List (String × Node)) :
    List PComp → Node → NonEmptyStack (List String) →
    Node × Except RpcError (NonEmptyStack (List String))
  | [], t, st => (t, .ok st)
  | .down name :: rest, t, st =>
    let p := createAndEnterPrepopulatedDirectory fetch t st name
    dirCreatingResolve fetch rest p.1 p.2
  | .up :: rest, t, st =>
    match st.popSingle with
    | none => (t, .error .invalidArgument)
    | some st' => dirCreatingResolve fetch rest t st'

/-- Model of `path.Resolve` driving a `parentDirectoryCreatingComponentWalker`: like
the directory-creating walker, but the terminal component is recorded
(`TerminalNameTrackingComponentWalker`) instead of entered; a path with no
terminal component leaves it `none`. -/
def parentDirCreatingResolve (fetch : Digest → List (String × Node)) :
    List PComp → Node → NonEmptyStack (List String) →
    Node × Except RpcError (NonEmptyStack (List String) × Option String)
  | [], t, st => (t, .ok (st, none))
  | [.down name], t, st => (t, .ok (st, some name))
  | .down name :: rest, t, st =>
    let p := createAndEnterPrepopulatedDirectory fetch t st name
    parentDirCreatingResolve fetch rest p.1 p.2
  | .up :: rest, t, st =>
    match st.popSingle with
    | none => (t, .error .invalidArgument)
    | some st' => parentDirCreatingResolve fetch rest t st'

/-- Model of `directoryCreatingComponentWalker.createChild` (lines 409–425): resolve
the entry's path from a copy of the prefix stack, reject paths with no
terminal component ("Path resolves to a directory"), then
`CreateChildren` with overwrite. -/
def createChild (fetch : Digest → List (String × Node)) (t : Node)
    (pstack : NonEmptyStack (List String)) (p : List PComp) (child : Node) :
    Node × Option RpcError :=
  match parentDirCreatingResolve fetch p t pstack with
  | (t', .error e) => (t', some e)
  | (t', .ok (_, none)) => (t', some .invalidArgument)
  | (t', .ok (st', some name)) => (setAt t' (st'.peek ++ [name]) child, none)

/-- Model of `remoteoutputservice.OutputFile`, with its path already parsed. -/
structure OutputFile where
  path : List PComp
  digest : Digest
  isExecutable : Bool

/-- Model of `remoteoutputservice.OutputDirectory`. -/
structure OutputDirectory where
  path : List PComp
  treeDigest : Digest

/-- Model of `remoteoutputservice.OutputSymlink`. -/
structure OutputSymlink where
  path : List PComp
  target : String

/-- Model of `remoteoutputservice.BatchCreateRequest`, minus the build ID (supplied
separately to the model). -/
structure BatchCreateRequest where
  pathPfx : List PComp
  cleanPathPfx : Bool
  files : List OutputFile
  directories : List OutputDirectory
  symlinks : List OutputSymlink

/-- The file-creating loop of `BatchCreate` (lines 482–492). -/
def bcFiles (fetch : Digest → List (String × Node))
    (pstack : NonEmptyStack (List String)) :
    List OutputFile → Node → Node × Option RpcError
  | [], t => (t, none)
  | e :: rest, t =>
    match createChild fetch t pstack e.path (.casFile e.digest e.isExecutable) with
    | (t', some err) => (t', some err)
    | (t', none) => bcFiles fetch pstack rest t'

/-- The directory-creating loop of `BatchCreate` (lines 495–514),
including the tree-size bound `maximumTreeSizeBytes` checked before the
entry is created. -/
def bcDirectories (maximumTreeSizeBytes : Nat) (fetch : Digest → List (String × Node))
    (pstack : NonEmptyStack (List String)) :
    List OutputDirectory → Node → Node × Option RpcError
  | [], t => (t, none)
  | e :: rest, t =>
    if maximumTreeSizeBytes < e.treeDigest.sizeBytes then (t, some .invalidArgument)
    else
      match createChild fetch t pstack e.path (.casDir e.treeDigest) with
      | (t', some err) => (t', some err)
      | (t', none) => bcDirectories maximumTreeSizeBytes fetch pstack rest t'

/-- The symlink-creating loop of `BatchCreate` (lines 517–523). -/
def bcSymlinks (fetch : Digest → List (String × Node))
    (pstack : NonEmptyStack (List String)) :
    List OutputSymlink → Node → Node × Option RpcError
  | [], t => (t, none)
  | e :: rest, t =>
    match createChild fetch t pstack e.path (.symlink e.target) with
    | (t', some err) => (t', some err)
    | (t', none) => bcSymlinks fetch pstack rest t'

/-- Model of `BatchCreate` after session validation: prefix resolution (and the
optional prefix cleaning), then files, directories and symlinks in
request order.  The first failure stops processing; the tree mutations
performed up to that point remain (Go mutates in place). -/
def batchCreate (maximumTreeSizeBytes : Nat) (fetch : Digest → List (String × Node))
    (t : Node) (req : BatchCreateRequest) : Node × Option RpcError :=
  match dirCreatingResolve fetch req.pathPfx t ⟨[], []⟩ with
  | (t₁, .error e) => (t₁, some e)
  | (t₁, .ok pstack) =>
    let t₂ := if req.cleanPathPfx then removeAllChildren t₁ pstack.peek else t₁
    match bcFiles fetch pstack req.files t₂ with
    | (t₃, some err) => (t₃, some err)
    | (t₃, none) =>
      match bcDirectories maximumTreeSizeBytes fetch pstack req.directories t₃ with
      | (t₄, some err) => (t₄, some err)
      | (t₄, none) => bcSymlinks fetch pstack req.symlinks t₄

/-- Model of `BatchCreate` as the RPC sees it: session validation through
`getOutputPathAndBuildState` first, then the tree work. -/
def batchCreateModel (r : Registry) (buildID : String) (maximumTreeSizeBytes : Nat)
    (fetch : Digest → List (String × Node)) (t : Node) (req : BatchCreateRequest) :
    Except RpcError Node :=
  match getOutputPathAndBuildState r buildID with
  | .error e => .error e
  | .ok _ =>
    match batchCreate maximumTreeSizeBytes fetch t req with
    | (_, some e) => .error e
    | (t', none) => .ok t'

/-! ## `BatchStat` -/

/-- The outcome of resolving one requested path (the walk itself is the
`path.Resolve` run over the stat walker): the path does not exist
(`syscall.ENOENT`), resolution failed hard, or a file status was
produced. -/
inductive StatOutcome where
  | enoent
  | failure
  | found (fs : FileStatusShape)
deriving DecidableEq, Repr

/-- One entry of `BatchStatResponse.Responses`: an empty response for a
missing path, or a file status. -/
inductive StatResponse where
  | empty
  | status (fs : FileStatusShape)
deriving DecidableEq, Repr

/-- The per-path loop of `BatchStat` (lines 650–697): ENOENT appends an
empty response, any other resolution error fails the whole call, success
appends the file status. -/
def batchStatLoop (resolve : String → StatOutcome) :
    List String → Option (List StatResponse)
  | [] => some []
  | p :: rest =>
    match resolve p with
    | .enoent => (batchStatLoop resolve rest).map (fun rs => .empty :: rs)
    | .failure => none
    | .found fs => (batchStatLoop resolve rest).map (fun rs => .status fs :: rs)

/-- Model of `BatchStat` as the RPC sees it: session validation, then the per-path
loop. -/
def batchStatModel (r : Registry) (buildID : String)
    (resolve : String → StatOutcome) (paths : List String) :
    Except RpcError (List StatResponse) :=
  match getOutputPathAndBuildState r buildID with
  | .error e => .error e
  | .ok _ =>
    match batchStatLoop resolve paths with
    | none => .error .internal
    | some rs => .ok rs

/-! ## Analysis helpers for the missing-blob filter -/

/-- The queueing trace of the filter: every digest of every retained node,
paired with the node's identifier, in traversal order. -/
def nodePairs (nodes : List (Nat × FNode)) : List (Digest × Nat) :=
  (nodes.map (fun node => (node.2.closure.getD []).map (fun d => (d, node.1)))).flatten

/-- Model of `queueNodeDigests` re-expressed over a flat digest/node list. -/
def processAdds (T : Nat) (missing : Digest → Bool) :
    List (Digest × Nat) → FilterSt → FilterSt
  | [], st => st
  | (d, nid) :: rest, st =>
    let st' := if T ≤ st.queue.length then
        { findMissingAndRemove missing st with queue := [] }
      else st
    processAdds T missing rest { st' with queue := appendA d nid st'.queue }

/-- The digest/node associations recorded in the queue. -/
def queueAssocs (q : List (Digest × List Nat)) : List (Digest × Nat) :=
  (q.map (fun p => p.2.map (fun v => (p.1, v)))).flatten

/-- The final-batch flush at the end of `filterMissingChildren`. -/
def flushEnd (missing : Digest → Bool) (st : FilterSt) : FilterSt :=
  if 0 < st.queue.length then findMissingAndRemove missing st else st

/-! ## Concrete states used to exercise the theorems -/

/-- The registry after `StartBuild(ob1, b1)` on a fresh directory. -/
def regW1 : Registry := (startBuildLocked Registry.initial "b1" "ob1" 0 0).1

/-- State `regW1` after a second `StartBuild(ob2, b2)`. -/
def regW2 : Registry := (startBuildLocked regW1 "b2" "ob2" 0 0).1

/-- A two-node tree whose three digests are pairwise distinct. -/
def nodesW3 : List (Nat × FNode) :=
  [(0, .leaf [⟨0, 0, 0⟩]), (1, .leaf [⟨0, 1, 0⟩, ⟨0, 2, 0⟩])]

/-- A store in which exactly the digest with hash 1 is missing. -/
def missingW3 : Digest → Bool := fun d => decide (d.hash = 1)

/-- Two nodes sharing a digest: the first holds digests `{a, b}`, the
second holds `{a}` again. -/
def cexNodes : List (Nat × FNode) :=
  [(0, .leaf [⟨0, 0, 0⟩, ⟨0, 1, 0⟩]), (1, .leaf [⟨0, 0, 0⟩])]

/-- The `BatchCreate` request with one file and one oversized directory
entry used to exercise the size check. -/
def reqW1 : BatchCreateRequest :=
  ⟨[], false, [⟨[.down "f"], ⟨0, 0, 1⟩, false⟩], [⟨[.down "g"], ⟨0, 1, 11⟩⟩], []⟩

/-! ## Lemma toolkit -/

@[simp]
theorem lookupA_nil [DecidableEq α] (k : α) : lookupA k ([] : List (α × β)) = none := rfl

@[simp]
theorem lookupA_cons [DecidableEq α] (k k' : α) (v : β) (t : List (α × β)) :
    lookupA k ((k', v) :: t) = if k = k' then some v else lookupA k t := rfl

@[simp]
theorem lookupA_eraseA [DecidableEq α] (k k' : α) (l : List (α × β)) :
    lookupA k (eraseA k' l) = if k = k' then none else lookupA k l := by
  induction l with
  | nil => simp [eraseA]
  | cons p t ih =>
    obtain ⟨a, b⟩ := p
    by_cases hak : a = k' <;> by_cases hka : k = a <;>
      simp [eraseA, hak, hka, ih] <;> simp_all

@[simp]
theorem lookupA_insertA [DecidableEq α] (k k' : α) (v : β) (l : List (α × β)) :
    lookupA k (insertA k' v l) = if k = k' then some v else lookupA k l := by
  by_cases h : k = k' <;> simp [insertA, h]

@[simp]
theorem lookupA_updateA [DecidableEq α] (k k' : α) (f : β → β) (l : List (α × β)) :
    lookupA k (updateA k' f l) =
      if k = k' then (lookupA k l).map f else lookupA k l := by
  induction l with
  | nil => simp [updateA]
  | cons p t ih =>
    obtain ⟨a, b⟩ := p
    by_cases hak : a = k' <;> by_cases hka : k = a <;>
      simp [updateA, hak, hka, ih] <;> simp_all

/-! ## List toolkit for the registry proofs -/

theorem lookupA_append [DecidableEq α] (k : α) (l₁ l₂ : List (α × β)) :
    lookupA k (l₁ ++ l₂) =
      match lookupA k l₁ with
      | some v => some v
      | none => lookupA k l₂ := by
  induction l₁ with
  | nil => simp
  | cons p t ih =>
    obtain ⟨a, b⟩ := p
    by_cases h : k = a <;> simp [h, ih]

theorem filterMap_congr_mem {f g : α → Option β} :
    ∀ l : List α, (∀ a ∈ l, f a = g a) → l.filterMap f = l.filterMap g
  | [], _ => rfl
  | a :: t, h => by
    have ht := filterMap_congr_mem t (fun x hx => h x (List.mem_cons_of_mem a hx))
    simp [List.filterMap_cons, h a (List.mem_cons_self a t), ht]

theorem mem_dropWhile_of_not (p : α → Bool) :
    ∀ l : List α, ∀ a ∈ l, p a = false → a ∈ l.dropWhile p
  | b :: t, a, ha, hpa => by
    by_cases hb : p b
    · rw [List.dropWhile_cons_of_pos hb]
      rcases List.mem_cons.mp ha with rfl | ha'
      · exact absurd hb (by simp [hpa])
      · exact mem_dropWhile_of_not p t a ha' hpa
    · rw [List.dropWhile_cons_of_neg hb]
      exact ha

/-- Every element surviving `dropWhile (· < c)` on a strictly sorted list
is ≥ `c` (with the "<" read off a projection `f`). -/
theorem dropWhile_sorted_ge {f : α → Nat} (c : Nat) :
    ∀ l : List α, (l.map f).Pairwise (· < ·) →
      ∀ a ∈ l.dropWhile (fun x => f x < c), c ≤ f a
  | [], _, a, ha => by simp [List.dropWhile] at ha
  | b :: t, hp, a, ha => by
    rw [List.map_cons, List.pairwise_cons] at hp
    by_cases hb : f b < c
    · rw [List.dropWhile_cons_of_pos (by simpa using hb)] at ha
      exact dropWhile_sorted_ge c t hp.2 a ha
    · rw [List.dropWhile_cons_of_neg (by simpa using hb)] at ha
      rcases List.mem_cons.mp ha with rfl | ha'
      · omega
      · have := hp.1 (f a) (List.mem_map_of_mem f ha')
        omega

theorem inv_initial : Inv Registry.initial := by
  constructor <;> simp [Registry.initial, ringCookies, ringEntries]

theorem ringCookies_def (r : Registry) :
    ringCookies r =
      r.ring.filterMap (fun sid => (lookupA sid r.arena).map (fun o => o.cookie)) := by
  rw [ringCookies, ringEntries, List.map_filterMap]
  refine filterMap_congr_mem _ (fun sid _ => ?_)
  cases lookupA sid r.arena <;> rfl

theorem ringCookies_congr (r r' : Registry) (hring : r'.ring = r.ring)
    (h : ∀ x ∈ r.ring,
      (lookupA x r'.arena).map (fun o => o.cookie) =
        (lookupA x r.arena).map (fun o => o.cookie)) :
    ringCookies r' = ringCookies r := by
  rw [ringCookies_def, ringCookies_def, hring]
  exact filterMap_congr_mem _ h

/-- Invariant preservation for a registry whose only change w.r.t. `r` is a
buildState-only `updateA` on the arena plus arbitrary rewiring of the
`buildIDs` map satisfying `buildCons`.  Used by `FinalizeBuild` and the two
session-installing branches of `StartBuild`. -/
theorem inv_of_update_bs (r : Registry) (h : Inv r) (sid : Nat)
    (g : OutputPathSt → OutputPathSt)
    (hg : ∀ o, (g o).cookie = o.cookie ∧ (g o).outputBaseID = o.outputBaseID)
    (bids : List (String × Nat))
    (hbids : ∀ b' x, lookupA b' bids = some x →
      ∃ ops, lookupA x (updateA sid g r.arena) = some ops ∧
        ∃ bs, ops.buildState = some bs ∧ bs.id = b') :
    Inv { r with arena := updateA sid g r.arena, buildIDs := bids } := by
  constructor
  · intro x v hx
    rw [lookupA_updateA] at hx
    by_cases hxs : x = sid
    · rw [if_pos hxs, hxs] at hx
      cases hv : lookupA sid r.arena with
      | none => rw [hv] at hx; cases hx
      | some w => exact hxs ▸ h.arenaLtNext sid w hv
    · rw [if_neg hxs] at hx
      exact h.arenaLtNext x v hx
  · intro ob x hob
    obtain ⟨ops₂, ha₂, hobid⟩ := h.obCons ob x hob
    rw [lookupA_updateA]
    by_cases hxs : x = sid
    · refine ⟨g ops₂, ?_, by rw [(hg ops₂).2, hobid]⟩
      rw [if_pos hxs, ha₂]
      rfl
    · refine ⟨ops₂, ?_, hobid⟩
      rw [if_neg hxs]
      exact ha₂
  · intro x v hx
    rw [lookupA_updateA] at hx
    by_cases hxs : x = sid
    · rw [if_pos hxs, hxs] at hx
      cases hv : lookupA sid r.arena with
      | none => rw [hv] at hx; cases hx
      | some w =>
        rw [hv] at hx
        cases hx
        show lookupA (g w).outputBaseID r.outputBaseIDs = some x
        rw [(hg w).2, hxs]
        exact h.obCov sid w hv
    · rw [if_neg hxs] at hx
      exact h.obCov x v hx
  · exact hbids
  · intro x hx
    obtain ⟨ops₂, ha₂⟩ := h.ringArena x hx
    rw [lookupA_updateA]
    by_cases hxs : x = sid
    · exact ⟨g ops₂, by rw [if_pos hxs, ha₂]; rfl⟩
    · exact ⟨ops₂, by rw [if_neg hxs]; exact ha₂⟩
  · intro x v hx
    rw [lookupA_updateA] at hx
    by_cases hxs : x = sid
    · rw [if_pos hxs, hxs] at hx
      cases hv : lookupA sid r.arena with
      | none => rw [hv] at hx; cases hx
      | some w =>
        rw [hv] at hx
        cases hx
        show (g w).cookie < r.changeID
        rw [(hg w).1]
        exact h.cookieLt sid w hv
    · rw [if_neg hxs] at hx
      exact h.cookieLt x v hx
  · have heq : ringCookies { r with arena := updateA sid g r.arena, buildIDs := bids } =
        ringCookies r := by
      refine ringCookies_congr _ _ rfl (fun x _ => ?_)
      show (lookupA x (updateA sid g r.arena)).map _ = _
      rw [lookupA_updateA]
      by_cases hxs : x = sid
      · rw [if_pos hxs]
        cases lookupA x r.arena with
        | none => rfl
        | some w => simp [(hg w).1]
      · rw [if_neg hxs]
    rw [heq]
    exact h.ringSorted

/-- Lemma: `FinalizeBuild` preserves the consistency invariant. -/
theorem inv_finalize (r r' : Registry) (b : String) (h : Inv r)
    (hf : finalizeBuild r b = some r') : Inv r' := by
  rw [finalizeBuild] at hf
  split at hf
  · cases hf; exact h
  · next sid hb =>
    split at hf
    · cases hf
    · next bs hbs =>
      cases hf
      obtain ⟨ops, harena, bs', hbs', hid'⟩ := h.buildCons b sid hb
      rw [harena, Option.some_bind] at hbs
      have hbseq : bs = bs' := by rw [hbs] at hbs'; exact Option.some_inj.mp hbs'
      refine inv_of_update_bs r h sid (fun o => { o with buildState := none })
        (fun o => ⟨rfl, rfl⟩) _ ?_
      intro b' x hb'
      rw [lookupA_eraseA] at hb'
      by_cases hbb : b' = bs.id
      · rw [if_pos hbb] at hb'; cases hb'
      · rw [if_neg hbb] at hb'
        obtain ⟨ops₂, ha₂, bs₂, hbs₂, hid₂⟩ := h.buildCons b' x hb'
        have hxs : x ≠ sid := by
          intro hx
          subst hx
          rw [harena] at ha₂
          cases ha₂
          rw [hbs] at hbs₂
          cases hbs₂
          exact hbb hid₂.symm
        refine ⟨ops₂, ?_, bs₂, hbs₂, hid₂⟩
        rw [lookupA_updateA, if_neg hxs]
        exact ha₂

theorem lookupA_append_some [DecidableEq α] {k : α} {l₁ l₂ : List (α × β)} {v : β}
    (h : lookupA k l₁ = some v) : lookupA k (l₁ ++ l₂) = some v := by
  rw [lookupA_append, h]

theorem lookupA_append_none [DecidableEq α] {k : α} {l₁ l₂ : List (α × β)}
    (h : lookupA k l₁ = none) : lookupA k (l₁ ++ l₂) = lookupA k l₂ := by
  rw [lookupA_append, h]

theorem lookupA_singleton [DecidableEq α] (k a : α) (b : β) :
    lookupA k [(a, b)] = if k = a then some b else none := by
  simp [lookupA]

theorem lookupA_append_singleton_ne [DecidableEq α] {k a : α} (h : k ≠ a)
    (l : List (α × β)) (b : β) : lookupA k (l ++ [(a, b)]) = lookupA k l := by
  rw [lookupA_append]
  cases lookupA k l with
  | some v => rfl
  | none => rw [lookupA_singleton, if_neg h]

theorem lookupA_eraseA_some [DecidableEq α] {k k' : α} {l : List (α × β)} {v : β}
    (h : lookupA k (eraseA k' l) = some v) : k ≠ k' ∧ lookupA k l = some v := by
  rw [lookupA_eraseA] at h
  by_cases hk : k = k'
  · rw [if_pos hk] at h; cases h
  · rw [if_neg hk] at h; exact ⟨hk, h⟩

/-- Lemma: `Clean` preserves the consistency invariant. -/
theorem inv_clean (r : Registry) (h : Inv r) (obID : String) : Inv (clean r obID) := by
  rw [clean]
  split
  · exact h
  · next sid hob =>
    obtain ⟨ops, harena, hobid⟩ := h.obCons obID sid hob
    have main : ∀ bids : List (String × Nat),
        (∀ b' x, lookupA b' bids = some x →
          ∃ ops₂, lookupA x r.arena = some ops₂ ∧ x ≠ sid ∧
            ∃ bs₂, ops₂.buildState = some bs₂ ∧ bs₂.id = b') →
        Inv { r with
          outputBaseIDs := eraseA obID r.outputBaseIDs
          ring := r.ring.filter (fun x => x ≠ sid)
          changeID := r.changeID + 1
          buildIDs := bids
          arena := eraseA sid r.arena } := by
      intro bids hbids
      constructor
      · intro x v hx
        obtain ⟨hxs, hx'⟩ := lookupA_eraseA_some hx
        exact h.arenaLtNext x v hx'
      · intro ob' x hob'
        obtain ⟨hne, hx'⟩ := lookupA_eraseA_some hob'
        obtain ⟨ops₂, ha₂, hid₂⟩ := h.obCons ob' x hx'
        have hxs : x ≠ sid := by
          intro hxe
          subst hxe
          rw [harena] at ha₂
          cases ha₂
          exact hne (hid₂ ▸ hobid)
        refine ⟨ops₂, ?_, hid₂⟩
        rw [lookupA_eraseA, if_neg hxs]
        exact ha₂
      · intro x v hx
        obtain ⟨hxs, hx'⟩ := lookupA_eraseA_some hx
        have hcov := h.obCov x v hx'
        have hvne : v.outputBaseID ≠ obID := by
          intro hveq
          rw [hveq, hob] at hcov
          cases hcov
          exact hxs rfl
        show lookupA v.outputBaseID (eraseA obID r.outputBaseIDs) = some x
        rw [lookupA_eraseA, if_neg hvne]
        exact hcov
      · intro b' x hb'
        obtain ⟨ops₂, ha₂, hxs, bs₂, hbs₂, hid₂⟩ := hbids b' x hb'
        refine ⟨ops₂, ?_, bs₂, hbs₂, hid₂⟩
        rw [lookupA_eraseA, if_neg hxs]
        exact ha₂
      · intro x hx
        rw [List.mem_filter] at hx
        have hxs : x ≠ sid := by simpa using hx.2
        obtain ⟨ops₂, ha₂⟩ := h.ringArena x hx.1
        refine ⟨ops₂, ?_⟩
        rw [lookupA_eraseA, if_neg hxs]
        exact ha₂
      · intro x v hx
        obtain ⟨hxs, hx'⟩ := lookupA_eraseA_some hx
        have := h.cookieLt x v hx'
        show v.cookie < r.changeID + 1
        omega
      · show (ringCookies _).Pairwise (· < ·)
        have hdef := ringCookies_def
          { r with
            outputBaseIDs := eraseA obID r.outputBaseIDs
            ring := r.ring.filter (fun x => x ≠ sid)
            changeID := r.changeID + 1
            buildIDs := bids
            arena := eraseA sid r.arena }
        rw [hdef]
        have hcongr : (r.ring.filter (fun x => x ≠ sid)).filterMap
              (fun x => (lookupA x (eraseA sid r.arena)).map (fun o => o.cookie)) =
            (r.ring.filter (fun x => x ≠ sid)).filterMap
              (fun x => (lookupA x r.arena).map (fun o => o.cookie)) := by
          refine filterMap_congr_mem _ (fun x hx => ?_)
          rw [List.mem_filter] at hx
          have hxs : x ≠ sid := by simpa using hx.2
          rw [lookupA_eraseA, if_neg hxs]
        rw [hcongr]
        refine List.Pairwise.sublist ?_ (ringCookies_def r ▸ h.ringSorted)
        exact List.Sublist.filterMap _ (List.filter_sublist r.ring)
    split
    · next bs hbs =>
      refine main (eraseA bs.id r.buildIDs) (fun b' x hb' => ?_)
      obtain ⟨hne, hx'⟩ := lookupA_eraseA_some hb'
      obtain ⟨ops₂, ha₂, bs₂, hbs₂, hid₂⟩ := h.buildCons b' x hx'
      refine ⟨ops₂, ha₂, ?_, bs₂, hbs₂, hid₂⟩
      intro hxe
      subst hxe
      rw [harena, Option.some_bind] at hbs
      rw [harena] at ha₂
      cases ha₂
      rw [hbs] at hbs₂
      cases hbs₂
      exact hne hid₂.symm
    · next hbs =>
      refine main r.buildIDs (fun b' x hb' => ?_)
      obtain ⟨ops₂, ha₂, bs₂, hbs₂, hid₂⟩ := h.buildCons b' x hb'
      refine ⟨ops₂, ha₂, ?_, bs₂, hbs₂, hid₂⟩
      intro hxe
      subst hxe
      rw [harena, Option.some_bind] at hbs
      rw [harena] at ha₂
      cases ha₂
      rw [hbs] at hbs₂
      cases hbs₂

/-! Case equations for `startBuildLocked`. -/

/-- The build ID is already registered: the registry is untouched. -/
theorem startBuildLocked_found (r : Registry) (buildID obID : String) (fn swf sid : Nat)
    (hb : lookupA buildID r.buildIDs = some sid) :
    startBuildLocked r buildID obID fn swf = (r, sid) := by
  simp only [startBuildLocked, hb]

/-- New build ID on a known output base with a stale active session: the
stale session is force-closed, then the new one installed. -/
theorem startBuildLocked_reuse_active (r : Registry) (buildID obID : String)
    (fn swf sid : Nat) (ops : OutputPathSt) (bs : BuildSt)
    (hb : lookupA buildID r.buildIDs = none)
    (hob : lookupA obID r.outputBaseIDs = some sid)
    (harena : lookupA sid r.arena = some ops)
    (hbs : ops.buildState = some bs) :
    startBuildLocked r buildID obID fn swf =
      ({ r with
          arena := updateA sid (fun o => { o with buildState := some ⟨buildID, fn, swf⟩ })
            (updateA sid (fun o => { o with buildState := none }) r.arena)
          buildIDs := insertA buildID sid (eraseA bs.id r.buildIDs) }, sid) := by
  simp only [startBuildLocked, hb, hob, harena, Option.some_bind, hbs]

/-- New build ID on a known output base with no active session. -/
theorem startBuildLocked_reuse_idle (r : Registry) (buildID obID : String)
    (fn swf sid : Nat) (ops : OutputPathSt)
    (hb : lookupA buildID r.buildIDs = none)
    (hob : lookupA obID r.outputBaseIDs = some sid)
    (harena : lookupA sid r.arena = some ops)
    (hbs : ops.buildState = none) :
    startBuildLocked r buildID obID fn swf =
      ({ r with
          arena := updateA sid (fun o => { o with buildState := some ⟨buildID, fn, swf⟩ }) r.arena
          buildIDs := insertA buildID sid r.buildIDs }, sid) := by
  simp only [startBuildLocked, hb, hob, harena, Option.some_bind, hbs]

/-- New build ID on an unknown output base: a fresh output path is
appended to the ring with cookie `changeID`, then the session installed. -/
theorem startBuildLocked_fresh (r : Registry) (buildID obID : String) (fn swf : Nat)
    (hb : lookupA buildID r.buildIDs = none)
    (hob : lookupA obID r.outputBaseIDs = none) :
    startBuildLocked r buildID obID fn swf =
      ({ r with
          arena := updateA r.nextID (fun o => { o with buildState := some ⟨buildID, fn, swf⟩ })
            (r.arena ++ [(r.nextID, ⟨none, r.changeID, obID⟩)])
          outputBaseIDs := insertA obID r.nextID r.outputBaseIDs
          ring := r.ring ++ [r.nextID]
          changeID := r.changeID + 1
          nextID := r.nextID + 1
          buildIDs := insertA buildID r.nextID r.buildIDs }, r.nextID) := by
  simp only [startBuildLocked, hb, hob]

theorem ringCookies_lt_changeID (r : Registry) (h : Inv r) :
    ∀ c ∈ ringCookies r, c < r.changeID := by
  intro c hc
  rw [ringCookies_def, List.mem_filterMap] at hc
  obtain ⟨x, hx, hfx⟩ := hc
  cases hv : lookupA x r.arena with
  | none => rw [hv] at hfx; cases hfx
  | some w =>
    rw [hv] at hfx
    simp only [Option.map_some'] at hfx
    cases hfx
    exact h.cookieLt x w hv

/-- Appending a fresh output path at the tail of the ring (the
session-less part of `StartBuild`'s creation branch) preserves the
invariant. -/
theorem inv_append_fresh (r : Registry) (h : Inv r) (obID : String)
    (hob : lookupA obID r.outputBaseIDs = none) :
    Inv { r with
      arena := r.arena ++ [(r.nextID, ⟨none, r.changeID, obID⟩)]
      outputBaseIDs := insertA obID r.nextID r.outputBaseIDs
      ring := r.ring ++ [r.nextID]
      changeID := r.changeID + 1
      nextID := r.nextID + 1 } := by
  have hnn : lookupA r.nextID r.arena = none := by
    cases hv : lookupA r.nextID r.arena with
    | none => rfl
    | some w => exact absurd (h.arenaLtNext r.nextID w hv) (lt_irrefl _)
  have hnew : lookupA r.nextID (r.arena ++ [(r.nextID, (⟨none, r.changeID, obID⟩ : OutputPathSt))]) =
      some ⟨none, r.changeID, obID⟩ := by
    rw [lookupA_append_none hnn, lookupA_singleton, if_pos rfl]
  constructor
  · intro x v hx
    rw [lookupA_append] at hx
    show x < r.nextID + 1
    cases hv : lookupA x r.arena with
    | some w =>
      have := h.arenaLtNext x w hv
      omega
    | none =>
      rw [hv, lookupA_singleton] at hx
      by_cases hxn : x = r.nextID
      · omega
      · rw [if_neg hxn] at hx; cases hx
  · intro ob' x hob'
    rw [lookupA_insertA] at hob'
    by_cases hoo : ob' = obID
    · rw [if_pos hoo] at hob'
      cases hob'
      exact ⟨⟨none, r.changeID, obID⟩, hnew, hoo ▸ rfl⟩
    · rw [if_neg hoo] at hob'
      obtain ⟨ops₂, ha₂, hid₂⟩ := h.obCons ob' x hob'
      exact ⟨ops₂, lookupA_append_some ha₂, hid₂⟩
  · intro x v hx
    rw [lookupA_append] at hx
    cases hv : lookupA x r.arena with
    | some w =>
      rw [hv] at hx
      cases hx
      have hcov := h.obCov x v hv
      have hvne : v.outputBaseID ≠ obID := by
        intro hveq
        rw [hveq, hob] at hcov
        cases hcov
      show lookupA v.outputBaseID (insertA obID r.nextID r.outputBaseIDs) = some x
      rw [lookupA_insertA, if_neg hvne]
      exact hcov
    | none =>
      rw [hv, lookupA_singleton] at hx
      by_cases hxn : x = r.nextID
      · rw [if_pos hxn] at hx
        cases hx
        show lookupA obID (insertA obID r.nextID r.outputBaseIDs) = some x
        rw [lookupA_insertA, if_pos rfl, hxn]
      · rw [if_neg hxn] at hx; cases hx
  · intro b' x hb'
    obtain ⟨ops₂, ha₂, bs₂, hbs₂, hid₂⟩ := h.buildCons b' x hb'
    exact ⟨ops₂, lookupA_append_some ha₂, bs₂, hbs₂, hid₂⟩
  · intro x hx
    rw [List.mem_append] at hx
    rcases hx with hx | hx
    · obtain ⟨ops₂, ha₂⟩ := h.ringArena x hx
      exact ⟨ops₂, lookupA_append_some ha₂⟩
    · rw [List.mem_singleton] at hx
      exact ⟨⟨none, r.changeID, obID⟩, hx ▸ hnew⟩
  · intro x v hx
    rw [lookupA_append] at hx
    show v.cookie < r.changeID + 1
    cases hv : lookupA x r.arena with
    | some w =>
      rw [hv] at hx
      cases hx
      have := h.cookieLt x v hv
      omega
    | none =>
      rw [hv, lookupA_singleton] at hx
      by_cases hxn : x = r.nextID
      · rw [if_pos hxn] at hx
        cases hx
        show r.changeID < r.changeID + 1
        omega
      · rw [if_neg hxn] at hx; cases hx
  · show (ringCookies _).Pairwise (· < ·)
    have heq : ringCookies { r with
        arena := r.arena ++ [(r.nextID, ⟨none, r.changeID, obID⟩)]
        outputBaseIDs := insertA obID r.nextID r.outputBaseIDs
        ring := r.ring ++ [r.nextID]
        changeID := r.changeID + 1
        nextID := r.nextID + 1 } = ringCookies r ++ [r.changeID] := by
      rw [ringCookies_def]
      show (r.ring ++ [r.nextID]).filterMap _ = _
      rw [List.filterMap_append]
      have h₁ : r.ring.filterMap (fun x =>
            (lookupA x (r.arena ++ [(r.nextID, (⟨none, r.changeID, obID⟩ : OutputPathSt))])).map
              (fun o => o.cookie)) = ringCookies r := by
        rw [ringCookies_def r]
        refine filterMap_congr_mem _ (fun x hx => ?_)
        obtain ⟨ops₂, ha₂⟩ := h.ringArena x hx
        rw [lookupA_append_some ha₂, ha₂]
      have h₂ : [r.nextID].filterMap (fun x =>
            (lookupA x (r.arena ++ [(r.nextID, (⟨none, r.changeID, obID⟩ : OutputPathSt))])).map
              (fun o => o.cookie)) = [r.changeID] := by
        simp [List.filterMap_cons, hnew]
      rw [h₁, h₂]
    rw [heq, List.pairwise_append]
    refine ⟨h.ringSorted, List.pairwise_singleton _ _, ?_⟩
    intro a ha b hb
    rw [List.mem_singleton] at hb
    subst hb
    exact ringCookies_lt_changeID r h a ha

/-- Lemma: the locked section of `StartBuild` preserves the consistency invariant. -/
theorem inv_startBuildLocked (r : Registry) (h : Inv r) (buildID obID : String)
    (fn swf : Nat) : Inv (startBuildLocked r buildID obID fn swf).1 := by
  cases hb : lookupA buildID r.buildIDs with
  | some sid =>
    rw [startBuildLocked_found r buildID obID fn swf sid hb]
    exact h
  | none =>
    cases hob : lookupA obID r.outputBaseIDs with
    | some sid =>
      obtain ⟨ops, harena, hobid⟩ := h.obCons obID sid hob
      cases hbs : ops.buildState with
      | some bs =>
        rw [startBuildLocked_reuse_active r buildID obID fn swf sid ops bs hb hob harena hbs]
        have h1 : Inv { r with
            arena := updateA sid (fun o => { o with buildState := none }) r.arena
            buildIDs := eraseA bs.id r.buildIDs } := by
          refine inv_of_update_bs r h sid (fun o => { o with buildState := none })
            (fun o => ⟨rfl, rfl⟩) _ ?_
          intro b' x hb'
          obtain ⟨hne, hx'⟩ := lookupA_eraseA_some hb'
          obtain ⟨ops₂, ha₂, bs₂, hbs₂, hid₂⟩ := h.buildCons b' x hx'
          have hxs : x ≠ sid := by
            intro hxe
            subst hxe
            rw [harena] at ha₂
            cases ha₂
            rw [hbs] at hbs₂
            cases hbs₂
            exact hne hid₂.symm
          refine ⟨ops₂, ?_, bs₂, hbs₂, hid₂⟩
          rw [lookupA_updateA, if_neg hxs]
          exact ha₂
        have h2 := inv_of_update_bs _ h1 sid
          (fun o => { o with buildState := some ⟨buildID, fn, swf⟩ })
          (fun o => ⟨rfl, rfl⟩) (insertA buildID sid (eraseA bs.id r.buildIDs)) ?_
        · exact h2
        · intro b' x hb'
          rw [lookupA_insertA] at hb'
          by_cases hbb : b' = buildID
          · rw [if_pos hbb] at hb'
            cases hb'
            refine ⟨{ ops with buildState := some ⟨buildID, fn, swf⟩ }, ?_, ⟨buildID, fn, swf⟩, rfl, hbb.symm⟩
            show lookupA sid (updateA sid _ (updateA sid _ r.arena)) = _
            rw [lookupA_updateA, if_pos rfl, lookupA_updateA, if_pos rfl, harena]
            rfl
          · rw [if_neg hbb] at hb'
            obtain ⟨hne, hx'⟩ := lookupA_eraseA_some hb'
            obtain ⟨ops₂, ha₂, bs₂, hbs₂, hid₂⟩ := h.buildCons b' x hx'
            have hxs : x ≠ sid := by
              intro hxe
              subst hxe
              rw [harena] at ha₂
              cases ha₂
              rw [hbs] at hbs₂
              cases hbs₂
              exact hne hid₂.symm
            refine ⟨ops₂, ?_, bs₂, hbs₂, hid₂⟩
            show lookupA x (updateA sid _ (updateA sid _ r.arena)) = _
            rw [lookupA_updateA, if_neg hxs, lookupA_updateA, if_neg hxs]
            exact ha₂
      | none =>
        rw [startBuildLocked_reuse_idle r buildID obID fn swf sid ops hb hob harena hbs]
        refine inv_of_update_bs r h sid
          (fun o => { o with buildState := some ⟨buildID, fn, swf⟩ })
          (fun o => ⟨rfl, rfl⟩) _ ?_
        intro b' x hb'
        rw [lookupA_insertA] at hb'
        by_cases hbb : b' = buildID
        · rw [if_pos hbb] at hb'
          cases hb'
          refine ⟨{ ops with buildState := some ⟨buildID, fn, swf⟩ }, ?_, ⟨buildID, fn, swf⟩, rfl, hbb.symm⟩
          rw [lookupA_updateA, if_pos rfl, harena]
          rfl
        · rw [if_neg hbb] at hb'
          obtain ⟨ops₂, ha₂, bs₂, hbs₂, hid₂⟩ := h.buildCons b' x hb'
          have hxs : x ≠ sid := by
            intro hxe
            subst hxe
            rw [harena] at ha₂
            cases ha₂
            rw [hbs] at hbs₂
            cases hbs₂
          refine ⟨ops₂, ?_, bs₂, hbs₂, hid₂⟩
          rw [lookupA_updateA, if_neg hxs]
          exact ha₂
    | none =>
      rw [startBuildLocked_fresh r buildID obID fn swf hb hob]
      have h1 := inv_append_fresh r h obID hob
      have hnn : lookupA r.nextID r.arena = none := by
        cases hv : lookupA r.nextID r.arena with
        | none => rfl
        | some w => exact absurd (h.arenaLtNext r.nextID w hv) (lt_irrefl _)
      have h2 := inv_of_update_bs _ h1 r.nextID
        (fun o => { o with buildState := some ⟨buildID, fn, swf⟩ })
        (fun o => ⟨rfl, rfl⟩) (insertA buildID r.nextID r.buildIDs) ?_
      · exact h2
      · intro b' x hb'
        rw [lookupA_insertA] at hb'
        by_cases hbb : b' = buildID
        · rw [if_pos hbb] at hb'
          cases hb'
          refine ⟨⟨some ⟨buildID, fn, swf⟩, r.changeID, obID⟩, ?_, ⟨buildID, fn, swf⟩, rfl, hbb.symm⟩
          show lookupA r.nextID (updateA r.nextID _ (r.arena ++ _)) = _
          rw [lookupA_updateA, if_pos rfl, lookupA_append_none hnn, lookupA_singleton, if_pos rfl]
          rfl
        · rw [if_neg hbb] at hb'
          obtain ⟨ops₂, ha₂, bs₂, hbs₂, hid₂⟩ := h.buildCons b' x hb'
          have hxs : x ≠ r.nextID := by
            intro hxe
            subst hxe
            exact absurd (h.arenaLtNext r.nextID ops₂ ha₂) (lt_irrefl _)
          refine ⟨ops₂, ?_, bs₂, hbs₂, hid₂⟩
          show lookupA x (updateA r.nextID _ (r.arena ++ _)) = _
          rw [lookupA_updateA, if_neg hxs]
          exact lookupA_append_some ha₂

/-- Every step preserves the invariant, hence every reachable registry
satisfies it. -/
theorem inv_step (r r' : Registry) (h : Inv r) (hs : Step r r') : Inv r' :=
  match hs with
  | .startBuild _ buildID obID fn swf => inv_startBuildLocked r h buildID obID fn swf
  | .clean _ obID => inv_clean r h obID
  | .finalize _ _ buildID hf => inv_finalize r r' buildID h hf

theorem inv_reachable (r : Registry) (h : Reachable r) : Inv r := by
  induction h with
  | init => exact inv_initial
  | step hr hs ih => exact inv_step _ _ ih hs

/-! Case equations for `clean` and `finalizeBuild`. -/

theorem clean_not_found (r : Registry) (obID : String)
    (hob : lookupA obID r.outputBaseIDs = none) : clean r obID = r := by
  simp only [clean, hob]

theorem clean_found_active (r : Registry) (obID : String) (sid : Nat)
    (ops : OutputPathSt) (bs : BuildSt)
    (hob : lookupA obID r.outputBaseIDs = some sid)
    (harena : lookupA sid r.arena = some ops)
    (hbs : ops.buildState = some bs) :
    clean r obID =
      { r with
        outputBaseIDs := eraseA obID r.outputBaseIDs
        ring := r.ring.filter (fun x => x ≠ sid)
        changeID := r.changeID + 1
        buildIDs := eraseA bs.id r.buildIDs
        arena := eraseA sid r.arena } := by
  simp only [clean, hob, harena, Option.some_bind, hbs]

theorem clean_found_idle (r : Registry) (obID : String) (sid : Nat)
    (ops : OutputPathSt)
    (hob : lookupA obID r.outputBaseIDs = some sid)
    (harena : lookupA sid r.arena = some ops)
    (hbs : ops.buildState = none) :
    clean r obID =
      { r with
        outputBaseIDs := eraseA obID r.outputBaseIDs
        ring := r.ring.filter (fun x => x ≠ sid)
        changeID := r.changeID + 1
        arena := eraseA sid r.arena } := by
  simp only [clean, hob, harena, Option.some_bind, hbs]

theorem finalizeBuild_unknown (r : Registry) (b : String)
    (hb : lookupA b r.buildIDs = none) : finalizeBuild r b = some r := by
  simp only [finalizeBuild, hb]

theorem finalizeBuild_known (r : Registry) (b : String) (sid : Nat)
    (ops : OutputPathSt) (bs : BuildSt)
    (hb : lookupA b r.buildIDs = some sid)
    (harena : lookupA sid r.arena = some ops)
    (hbs : ops.buildState = some bs) :
    finalizeBuild r b =
      some { r with
        buildIDs := eraseA bs.id r.buildIDs
        arena := updateA sid (fun o => { o with buildState := none }) r.arena } := by
  simp only [finalizeBuild, hb, harena, Option.some_bind, hbs]

/-! ## Frame facts across steps, for the cookie contract -/

theorem frame_refl (r : Registry) : Frame r r :=
  ⟨le_refl _, le_refl _, fun _ ops' hx => .inl ⟨ops', hx, rfl, rfl⟩⟩

theorem frame_comp (r r₁ r₂ : Registry) (h₁ : Frame r r₁) (h₂ : Frame r₁ r₂) :
    Frame r r₂ := by
  obtain ⟨hc₁, hn₁, hf₁⟩ := h₁
  obtain ⟨hc₂, hn₂, hf₂⟩ := h₂
  refine ⟨le_trans hc₁ hc₂, le_trans hn₁ hn₂, fun sid ops₂ hx => ?_⟩
  rcases hf₂ sid ops₂ hx with ⟨ops₁, hl₁, hck, hob⟩ | ⟨hsid, hck⟩
  · rcases hf₁ sid ops₁ hl₁ with ⟨ops, hl, hck', hob'⟩ | ⟨hsid, hck'⟩
    · exact .inl ⟨ops, hl, hck.trans hck', hob.trans hob'⟩
    · exact .inr ⟨hsid, hck ▸ hck'⟩
  · exact .inr ⟨le_trans hn₁ hsid, le_trans hc₁ hck⟩

theorem frame_startBuild (r : Registry) (h : Inv r) (buildID obID : String)
    (fn swf : Nat) : Frame r (startBuildLocked r buildID obID fn swf).1 := by
  cases hb : lookupA buildID r.buildIDs with
  | some sid =>
    rw [startBuildLocked_found r buildID obID fn swf sid hb]
    exact frame_refl r
  | none =>
    cases hob : lookupA obID r.outputBaseIDs with
    | some sid =>
      obtain ⟨ops, harena, hobid⟩ := h.obCons obID sid hob
      cases hbs : ops.buildState with
      | some bs =>
        rw [startBuildLocked_reuse_active r buildID obID fn swf sid ops bs hb hob harena hbs]
        refine ⟨le_refl _, le_refl _, fun x v hx => ?_⟩
        show _ ∨ (r.nextID ≤ x ∧ r.changeID ≤ v.cookie)
        rw [lookupA_updateA] at hx
        by_cases hxs : x = sid
        · rw [if_pos hxs, lookupA_updateA, if_pos hxs, hxs, harena] at hx
          cases hx
          exact .inl ⟨ops, hxs ▸ harena, rfl, rfl⟩
        · rw [if_neg hxs, lookupA_updateA, if_neg hxs] at hx
          exact .inl ⟨v, hx, rfl, rfl⟩
      | none =>
        rw [startBuildLocked_reuse_idle r buildID obID fn swf sid ops hb hob harena hbs]
        refine ⟨le_refl _, le_refl _, fun x v hx => ?_⟩
        show _ ∨ (r.nextID ≤ x ∧ r.changeID ≤ v.cookie)
        rw [lookupA_updateA] at hx
        by_cases hxs : x = sid
        · rw [if_pos hxs, hxs, harena] at hx
          cases hx
          exact .inl ⟨ops, hxs ▸ harena, rfl, rfl⟩
        · rw [if_neg hxs] at hx
          exact .inl ⟨v, hx, rfl, rfl⟩
    | none =>
      rw [startBuildLocked_fresh r buildID obID fn swf hb hob]
      have hnn : lookupA r.nextID r.arena = none := by
        cases hv : lookupA r.nextID r.arena with
        | none => rfl
        | some w => exact absurd (h.arenaLtNext r.nextID w hv) (lt_irrefl _)
      refine ⟨by show r.changeID ≤ r.changeID + 1; omega,
        by show r.nextID ≤ r.nextID + 1; omega, fun x v hx => ?_⟩
      show _ ∨ (r.nextID ≤ x ∧ r.changeID ≤ v.cookie)
      rw [lookupA_updateA] at hx
      by_cases hxn : x = r.nextID
      · rw [if_pos hxn, hxn, lookupA_append_none hnn, lookupA_singleton, if_pos rfl] at hx
        cases hx
        exact .inr ⟨le_of_eq hxn.symm, le_refl _⟩
      · rw [if_neg hxn, lookupA_append_singleton_ne hxn] at hx
        exact .inl ⟨v, hx, rfl, rfl⟩

theorem frame_clean (r : Registry) (h : Inv r) (obID : String) :
    Frame r (clean r obID) := by
  cases hob : lookupA obID r.outputBaseIDs with
  | none =>
    rw [clean_not_found r obID hob]
    exact frame_refl r
  | some sid =>
    obtain ⟨ops, harena, hobid⟩ := h.obCons obID sid hob
    have main : ∀ bids, Frame r
        { r with
          outputBaseIDs := eraseA obID r.outputBaseIDs
          ring := r.ring.filter (fun x => x ≠ sid)
          changeID := r.changeID + 1
          buildIDs := bids
          arena := eraseA sid r.arena } := by
      intro bids
      refine ⟨by show r.changeID ≤ r.changeID + 1; omega, le_refl _, fun x v hx => ?_⟩
      obtain ⟨hxs, hx'⟩ := lookupA_eraseA_some hx
      exact .inl ⟨v, hx', rfl, rfl⟩
    cases hbs : ops.buildState with
    | some bs =>
      rw [clean_found_active r obID sid ops bs hob harena hbs]
      exact main (eraseA bs.id r.buildIDs)
    | none =>
      rw [clean_found_idle r obID sid ops hob harena hbs]
      exact main r.buildIDs

theorem frame_finalize (r r' : Registry) (h : Inv r) (b : String)
    (hf : finalizeBuild r b = some r') : Frame r r' := by
  cases hb : lookupA b r.buildIDs with
  | none =>
    rw [finalizeBuild_unknown r b hb] at hf
    cases hf
    exact frame_refl r
  | some sid =>
    obtain ⟨ops, harena, bs', hbs', hid'⟩ := h.buildCons b sid hb
    rw [finalizeBuild_known r b sid ops bs' hb harena hbs'] at hf
    cases hf
    refine ⟨le_refl _, le_refl _, fun x v hx => ?_⟩
    show _ ∨ (r.nextID ≤ x ∧ r.changeID ≤ v.cookie)
    rw [lookupA_updateA] at hx
    by_cases hxs : x = sid
    · rw [if_pos hxs, hxs, harena] at hx
      cases hx
      exact .inl ⟨ops, hxs ▸ harena, rfl, rfl⟩
    · rw [if_neg hxs] at hx
      exact .inl ⟨v, hx, rfl, rfl⟩

theorem frame_step (r r' : Registry) (h : Inv r) (hs : Step r r') : Frame r r' :=
  match hs with
  | .startBuild _ buildID obID fn swf => frame_startBuild r h buildID obID fn swf
  | .clean _ obID => frame_clean r h obID
  | .finalize _ _ b hf => frame_finalize r r' h b hf

theorem inv_stepStar (r r' : Registry) (h : Inv r) (hs : StepStar r r') : Inv r' := by
  induction hs with
  | refl => exact h
  | tail hs' st ih => exact inv_step _ _ ih st

theorem frame_stepStar (r r' : Registry) (h : Inv r) (hs : StepStar r r') :
    Frame r r' := by
  induction hs with
  | refl => exact frame_refl r
  | tail hs' st ih => exact frame_comp _ _ _ ih (frame_step _ _ (inv_stepStar _ _ h hs') st)

/-! ## `VirtualReadDir` support -/

/-- On a sorted ring, everything `VirtualReadDir` reports from `c` onwards
has cookie ≥ `c`. -/
theorem virtualReadDir_ge (r : Registry) (h : Inv r) (c : Nat) :
    ∀ e ∈ virtualReadDir r c, c ≤ e.cookie := by
  intro e he
  rw [virtualReadDir, List.mem_map] at he
  obtain ⟨p, hp, rfl⟩ := he
  exact dropWhile_sorted_ge c (ringEntries r) h.ringSorted p hp

/-- Every ring entry with cookie ≥ `c` is reported by `VirtualReadDir`
from `c`. -/
theorem virtualReadDir_of_ge (r : Registry) (c sid : Nat) (ops : OutputPathSt)
    (hring : sid ∈ r.ring) (harena : lookupA sid r.arena = some ops)
    (hc : c ≤ ops.cookie) :
    ∃ e ∈ virtualReadDir r c, e.sid = sid ∧ e.cookie = ops.cookie ∧
      e.reported = ops.cookie + 1 := by
  have hmem : (sid, ops) ∈ ringEntries r := by
    rw [ringEntries, List.mem_filterMap]
    exact ⟨sid, hring, by rw [harena]; rfl⟩
  have hdrop := mem_dropWhile_of_not (fun q => decide (q.2.cookie < c))
    (ringEntries r) (sid, ops) hmem
    (by rw [decide_eq_false_iff_not]; show ¬(sid, ops).2.cookie < c; simp only []; omega)
  refine ⟨⟨ops.cookie + 1, ops.outputBaseID, ops.cookie, sid⟩, ?_, rfl, rfl, rfl⟩
  rw [virtualReadDir, List.mem_map]
  exact ⟨(sid, ops), hdrop, rfl⟩

/-! ## Walker `OnUp` behaviour -/

theorem statWalkerUps_voided : ∀ (n : Nat) (cw : StatWalkerSt), cw.voided = true →
    statWalkerUps n cw = cw
  | 0, _, _ => rfl
  | n + 1, cw, h => by rw [statWalkerUps, if_pos h]

/-- More `..` steps than directories above the root: the stat walker winds
up at the root with an External status, resolution continued at the void
walker. -/
theorem statWalkerUps_escape : ∀ (n : Nat) (top : List Nat) (bottom : Nat)
    (fs : FileStatusShape), top.length < n →
    statWalkerUps n ⟨⟨top, bottom⟩, fs, false⟩ = ⟨⟨[], bottom⟩, .external, true⟩
  | n + 1, [], bottom, fs, _ => by
    rw [statWalkerUps, if_neg (by simp)]
    rw [show statWalkerOnUp ⟨⟨[], bottom⟩, fs, false⟩ =
      ⟨⟨[], bottom⟩, .external, true⟩ from rfl]
    exact statWalkerUps_voided n _ rfl
  | n + 1, a :: t, bottom, fs, h => by
    rw [statWalkerUps, if_neg (by simp)]
    rw [show statWalkerOnUp ⟨⟨a :: t, bottom⟩, fs, false⟩ =
      ⟨⟨t, bottom⟩, fs, false⟩ from rfl]
    exact statWalkerUps_escape n t bottom fs (by simpa using Nat.lt_of_succ_lt_succ h)

/-- More `..` steps than directories above the root: the directory-creating
walker rejects the path with InvalidArgument. -/
theorem directoryCreatingUps_escape : ∀ (n : Nat) (top : List Nat) (bottom : Nat),
    top.length < n →
    directoryCreatingUps n ⟨top, bottom⟩ = .error .invalidArgument
  | n + 1, [], bottom, _ => by
    rw [directoryCreatingUps]
    rfl
  | n + 1, a :: t, bottom, h => by
    rw [directoryCreatingUps]
    rw [show directoryCreatingOnUp ⟨a :: t, bottom⟩ = .ok ⟨t, bottom⟩ from rfl]
    exact directoryCreatingUps_escape n t bottom (by simpa using Nat.lt_of_succ_lt_succ h)

/-- Same for the parent-directory-creating walker. -/
theorem parentDirectoryCreatingUps_escape : ∀ (n : Nat) (top : List Nat) (bottom : Nat),
    top.length < n →
    parentDirectoryCreatingUps n ⟨top, bottom⟩ = .error .invalidArgument
  | n + 1, [], bottom, _ => by
    rw [parentDirectoryCreatingUps]
    rfl
  | n + 1, a :: t, bottom, h => by
    rw [parentDirectoryCreatingUps]
    rw [show parentDirectoryCreatingOnUp ⟨a :: t, bottom⟩ = .ok ⟨t, bottom⟩ from rfl]
    exact parentDirectoryCreatingUps_escape n t bottom (by simpa using Nat.lt_of_succ_lt_succ h)

/-! ## `BatchStat` support -/

theorem batchStatLoop_spec (resolve : String → StatOutcome) :
    ∀ (paths : List String) (rs : List StatResponse),
      batchStatLoop resolve paths = some rs →
      rs.length = paths.length ∧
      ∀ (i : Nat) (p : String), paths[i]? = some p →
        (resolve p = .enoent → rs[i]? = some StatResponse.empty) ∧
        (∀ fs, resolve p = .found fs → rs[i]? = some (StatResponse.status fs)) := by
  intro paths
  induction paths with
  | nil =>
    intro rs h
    rw [batchStatLoop] at h
    cases h
    exact ⟨rfl, by intro i p hp; simp at hp⟩
  | cons p₀ rest ih =>
    intro rs h
    rw [batchStatLoop] at h
    cases hr : resolve p₀ with
    | enoent =>
      rw [hr] at h
      obtain ⟨rs', hrs', rfl⟩ := Option.map_eq_some'.mp h
      obtain ⟨hlen, hidx⟩ := ih rs' hrs'
      refine ⟨by simp [hlen], ?_⟩
      intro i p hp
      cases i with
      | zero =>
        rw [List.getElem?_cons_zero] at hp
        cases hp
        exact ⟨fun _ => by simp, fun fs hfs => absurd (hr ▸ hfs) (by simp)⟩
      | succ j =>
        rw [List.getElem?_cons_succ] at hp
        simpa using hidx j p hp
    | failure => rw [hr] at h; cases h
    | found fs₀ =>
      rw [hr] at h
      obtain ⟨rs', hrs', rfl⟩ := Option.map_eq_some'.mp h
      obtain ⟨hlen, hidx⟩ := ih rs' hrs'
      refine ⟨by simp [hlen], ?_⟩
      intro i p hp
      cases i with
      | zero =>
        rw [List.getElem?_cons_zero] at hp
        cases hp
        refine ⟨fun he => absurd (hr ▸ he) (by simp), fun fs hfs => ?_⟩
        rw [hr] at hfs
        cases hfs
        simp
      | succ j =>
        rw [List.getElem?_cons_succ] at hp
        simpa using hidx j p hp

/-! ## `BatchCreate` support -/

theorem bcDirectories_append (maximumTreeSizeBytes : Nat)
    (fetch : Digest → List (String × Node)) (pstack : NonEmptyStack (List String)) :
    ∀ (xs ys : List OutputDirectory) (t : Node),
      bcDirectories maximumTreeSizeBytes fetch pstack (xs ++ ys) t =
        match bcDirectories maximumTreeSizeBytes fetch pstack xs t with
        | (t', some e) => (t', some e)
        | (t', none) => bcDirectories maximumTreeSizeBytes fetch pstack ys t' := by
  intro xs
  induction xs with
  | nil => intro ys t; rfl
  | cons e rest ih =>
    intro ys t
    rw [List.cons_append, bcDirectories, bcDirectories]
    by_cases hsz : maximumTreeSizeBytes < e.treeDigest.sizeBytes
    · rw [if_pos hsz, if_pos hsz]
    · rw [if_neg hsz, if_neg hsz]
      cases hcc : createChild fetch t pstack e.path (.casDir e.treeDigest) with
      | mk t' err =>
        cases err with
        | some e' => rfl
        | none => exact ih ys t'

/-! ## Missing-blob filter analysis -/

theorem filterMissingChildren_eq_flushEnd (T fn : Nat) (missing : Digest → Bool)
    (nodes : List (Nat × FNode)) :
    filterMissingChildren T fn missing nodes =
      flushEnd missing (nodes.foldl (filterStep T fn missing) ⟨[], [], []⟩) := rfl

theorem foldr_append_eq_flatten :
    ∀ l : List (Digest × List Nat),
      l.foldr (fun p acc => p.2 ++ acc) [] = (l.map Prod.snd).flatten
  | [] => rfl
  | p :: t => by
    rw [List.foldr_cons, List.map_cons, List.flatten_cons, foldr_append_eq_flatten t]

theorem mem_queueAssocs {q : List (Digest × List Nat)} {d : Digest} {x : Nat} :
    (d, x) ∈ queueAssocs q ↔ ∃ nids, (d, nids) ∈ q ∧ x ∈ nids := by
  rw [queueAssocs, List.mem_flatten]
  constructor
  · rintro ⟨l, hl, hx⟩
    rw [List.mem_map] at hl
    obtain ⟨p, hp, rfl⟩ := hl
    rw [List.mem_map] at hx
    obtain ⟨v, hv, hveq⟩ := hx
    cases hveq
    exact ⟨p.2, hp, hv⟩
  · rintro ⟨nids, hmem, hx⟩
    refine ⟨nids.map (fun v => (d, v)), ?_, ?_⟩
    · rw [List.mem_map]
      exact ⟨(d, nids), hmem, rfl⟩
    · rw [List.mem_map]
      exact ⟨x, hx, rfl⟩

theorem queueAssocs_pos {q : List (Digest × List Nat)} {p : Digest × Nat}
    (h : p ∈ queueAssocs q) : 0 < q.length := by
  obtain ⟨d, x⟩ := p
  obtain ⟨nids, hmem, _⟩ := mem_queueAssocs.mp h
  cases q with
  | nil => cases hmem
  | cons _ _ => simp

theorem fmr_queue (missing : Digest → Bool) (st : FilterSt) :
    (findMissingAndRemove missing st).queue = st.queue := rfl

theorem fmr_calls (missing : Digest → Bool) (st : FilterSt) :
    (findMissingAndRemove missing st).calls = st.calls ++ [st.queue.map Prod.fst] := rfl

theorem fmr_removed_mem (missing : Digest → Bool) (st : FilterSt) (x : Nat) :
    x ∈ (findMissingAndRemove missing st).removed ↔
      x ∈ st.removed ∨ ∃ p ∈ queueAssocs st.queue, missing p.1 = true ∧ p.2 = x := by
  show x ∈ st.removed ++ _ ↔ _
  rw [List.mem_append, foldr_append_eq_flatten]
  refine or_congr Iff.rfl ?_
  rw [List.mem_flatten]
  constructor
  · rintro ⟨l, hl, hx⟩
    rw [List.mem_map] at hl
    obtain ⟨p, hp, rfl⟩ := hl
    rw [List.mem_filter] at hp
    refine ⟨(p.1, x), mem_queueAssocs.mpr ⟨p.2, ?_, hx⟩, by simpa using hp.2, rfl⟩
    exact hp.1
  · rintro ⟨p, hmem, hmiss, rfl⟩
    obtain ⟨d, v⟩ := p
    obtain ⟨nids, hq, hv⟩ := mem_queueAssocs.mp hmem
    refine ⟨nids, ?_, hv⟩
    rw [List.mem_map]
    refine ⟨(d, nids), ?_, rfl⟩
    rw [List.mem_filter]
    exact ⟨hq, by simpa using hmiss⟩

theorem appendA_keys_fresh (d : Digest) (v : Nat) :
    ∀ q : List (Digest × List Nat), d ∉ q.map Prod.fst →
      (appendA d v q).map Prod.fst = q.map Prod.fst ++ [d]
  | [], _ => rfl
  | (k, vs) :: t, h => by
    have hk : ¬k = d := by
      intro he
      exact h (by rw [List.map_cons, he]; exact List.mem_cons_self _ _)
    rw [appendA, if_neg hk, List.map_cons, List.map_cons, List.cons_append,
      appendA_keys_fresh d v t (fun hm => h (by rw [List.map_cons]; exact List.mem_cons_of_mem _ hm))]

theorem appendA_length_fresh (d : Digest) (v : Nat) (q : List (Digest × List Nat))
    (h : d ∉ q.map Prod.fst) : (appendA d v q).length = q.length + 1 := by
  have hlen := congrArg List.length (appendA_keys_fresh d v q h)
  simpa using hlen

theorem mem_queueAssocs_appendA_self (d : Digest) (v : Nat) :
    ∀ q : List (Digest × List Nat), (d, v) ∈ queueAssocs (appendA d v q)
  | [] => by
    rw [mem_queueAssocs]
    exact ⟨[v], List.mem_singleton.mpr rfl, List.mem_singleton.mpr rfl⟩
  | (k, vs) :: t => by
    rw [appendA]
    by_cases hk : k = d
    · rw [if_pos hk, mem_queueAssocs]
      exact ⟨vs ++ [v], by rw [hk]; exact List.mem_cons_self _ _, by simp⟩
    · rw [if_neg hk, mem_queueAssocs]
      obtain ⟨nids, hmem, hv⟩ := mem_queueAssocs.mp (mem_queueAssocs_appendA_self d v t)
      exact ⟨nids, List.mem_cons_of_mem _ hmem, hv⟩

theorem queueAssocs_appendA_super (d : Digest) (v : Nat) :
    ∀ (q : List (Digest × List Nat)) (p : Digest × Nat),
      p ∈ queueAssocs q → p ∈ queueAssocs (appendA d v q)
  | [], p, hp => by cases (by simpa [queueAssocs] using hp : False)
  | (k, vs) :: t, p, hp => by
    obtain ⟨pd, px⟩ := p
    obtain ⟨nids, hmem, hv⟩ := mem_queueAssocs.mp hp
    rw [appendA]
    by_cases hk : k = d
    · rw [if_pos hk, mem_queueAssocs]
      rcases List.mem_cons.mp hmem with heq | hmem'
      · cases heq
        exact ⟨vs ++ [v], List.mem_cons_self _ _, List.mem_append_left _ hv⟩
      · exact ⟨nids, List.mem_cons_of_mem _ hmem', hv⟩
    · rw [if_neg hk, mem_queueAssocs]
      rcases List.mem_cons.mp hmem with heq | hmem'
      · cases heq
        exact ⟨vs, List.mem_cons_self _ _, hv⟩
      · obtain ⟨nids', hmem'', hv'⟩ :=
          mem_queueAssocs.mp (queueAssocs_appendA_super d v t (pd, px)
            (mem_queueAssocs.mpr ⟨nids, hmem', hv⟩))
        exact ⟨nids', List.mem_cons_of_mem _ hmem'', hv'⟩

theorem queueAssocs_appendA_sub (d : Digest) (v : Nat) :
    ∀ (q : List (Digest × List Nat)) (p : Digest × Nat),
      p ∈ queueAssocs (appendA d v q) → p = (d, v) ∨ p ∈ queueAssocs q
  | [], p, hp => by
    obtain ⟨pd, px⟩ := p
    obtain ⟨nids, hmem, hv⟩ := mem_queueAssocs.mp hp
    rw [show appendA d v [] = [(d, [v])] from rfl, List.mem_singleton] at hmem
    cases hmem
    rw [List.mem_singleton] at hv
    exact .inl (by rw [hv])
  | (k, vs) :: t, p, hp => by
    obtain ⟨pd, px⟩ := p
    rw [appendA] at hp
    by_cases hk : k = d
    · rw [if_pos hk] at hp
      obtain ⟨nids, hmem, hv⟩ := mem_queueAssocs.mp hp
      rcases List.mem_cons.mp hmem with heq | hmem'
      · cases heq
        rcases List.mem_append.mp hv with hv' | hv'
        · exact .inr (mem_queueAssocs.mpr ⟨vs, hk ▸ List.mem_cons_self _ _, hv'⟩)
        · rw [List.mem_singleton] at hv'
          exact .inl (by rw [hk, hv'])
      · exact .inr (mem_queueAssocs.mpr ⟨nids, List.mem_cons_of_mem _ hmem', hv⟩)
    · rw [if_neg hk] at hp
      obtain ⟨nids, hmem, hv⟩ := mem_queueAssocs.mp hp
      rcases List.mem_cons.mp hmem with heq | hmem'
      · cases heq
        exact .inr (mem_queueAssocs.mpr ⟨vs, List.mem_cons_self _ _, hv⟩)
      · rcases queueAssocs_appendA_sub d v t (pd, px)
            (mem_queueAssocs.mpr ⟨nids, hmem', hv⟩) with h | h
        · exact .inl h
        · obtain ⟨nids', hmem'', hv'⟩ := mem_queueAssocs.mp h
          exact .inr (mem_queueAssocs.mpr ⟨nids', List.mem_cons_of_mem _ hmem'', hv'⟩)

theorem removed_mono_fmr (missing : Digest → Bool) (st : FilterSt) (x : Nat)
    (h : x ∈ st.removed) : x ∈ (findMissingAndRemove missing st).removed :=
  (fmr_removed_mem missing st x).mpr (.inl h)

theorem removed_mono_processAdds (T : Nat) (missing : Digest → Bool) :
    ∀ (l : List (Digest × Nat)) (st : FilterSt) (x : Nat),
      x ∈ st.removed → x ∈ (processAdds T missing l st).removed
  | [], _, _, h => h
  | (d, nid) :: rest, st, x, h => by
    rw [processAdds]
    refine removed_mono_processAdds T missing rest _ x ?_
    by_cases hfull : T ≤ st.queue.length
    · simp only [if_pos hfull]
      exact removed_mono_fmr missing st x h
    · simp only [if_neg hfull]
      exact h

theorem removed_mono_flushEnd (missing : Digest → Bool) (st : FilterSt) (x : Nat)
    (h : x ∈ st.removed) : x ∈ (flushEnd missing st).removed := by
  rw [flushEnd]
  by_cases hq : 0 < st.queue.length
  · rw [if_pos hq]
    exact removed_mono_fmr missing st x h
  · rw [if_neg hq]
    exact h

theorem queueNodeDigests_eq_processAdds (T : Nat) (missing : Digest → Bool) (nid : Nat) :
    ∀ (ds : List Digest) (st : FilterSt),
      queueNodeDigests T missing nid ds st =
        processAdds T missing (ds.map (fun d => (d, nid))) st
  | [], _ => rfl
  | d :: ds, st => by
    rw [List.map_cons, queueNodeDigests, processAdds]
    exact queueNodeDigests_eq_processAdds T missing nid ds _

theorem processAdds_append (T : Nat) (missing : Digest → Bool) :
    ∀ (l₁ l₂ : List (Digest × Nat)) (st : FilterSt),
      processAdds T missing (l₁ ++ l₂) st =
        processAdds T missing l₂ (processAdds T missing l₁ st)
  | [], _, _ => rfl
  | (d, nid) :: rest, l₂, st => by
    rw [List.cons_append, processAdds, processAdds]
    exact processAdds_append T missing rest l₂ _

theorem nodePairs_cons (node : Nat × FNode) (rest : List (Nat × FNode)) :
    nodePairs (node :: rest) =
      (node.2.closure.getD []).map (fun d => (d, node.1)) ++ nodePairs rest := by
  rw [nodePairs, List.map_cons, List.flatten_cons, nodePairs]

theorem any_not_uses_eq_false {ds : List Digest} {fn : Nat}
    (h : ∀ d ∈ ds, d.usesDigestFunction fn = true) :
    ds.any (fun d => !d.usesDigestFunction fn) = false := by
  rw [List.any_eq_false]
  intro d hd
  rw [h d hd]
  simp

theorem foldl_filterStep_eq (T fn : Nat) (missing : Digest → Bool) :
    ∀ (nodes : List (Nat × FNode)) (st : FilterSt),
      (∀ node ∈ nodes, ∃ ds, node.2.closure = some ds ∧
        ∀ d ∈ ds, d.usesDigestFunction fn = true) →
      nodes.foldl (filterStep T fn missing) st =
        processAdds T missing (nodePairs nodes) st
  | [], st, _ => rfl
  | node :: rest, st, hgood => by
    obtain ⟨ds, hcl, hmatch⟩ := hgood node (List.mem_cons_self _ _)
    rw [List.foldl_cons, nodePairs_cons, processAdds_append, hcl]
    have hstep : filterStep T fn missing st node = queueNodeDigests T missing node.1 ds st := by
      rw [filterStep, hcl]
      simp only [any_not_uses_eq_false hmatch]
      rfl
    rw [hstep, queueNodeDigests_eq_processAdds]
    show List.foldl _ _ rest = _
    exact foldl_filterStep_eq T fn missing rest _
      (fun n hn => hgood n (List.mem_cons_of_mem _ hn))

theorem processAdds_cons_full (T : Nat) (missing : Digest → Bool) (d : Digest)
    (nid : Nat) (rest : List (Digest × Nat)) (st : FilterSt)
    (h : T ≤ st.queue.length) :
    processAdds T missing ((d, nid) :: rest) st =
      processAdds T missing rest
        ⟨[(d, [nid])], st.calls ++ [st.queue.map Prod.fst],
          (findMissingAndRemove missing st).removed⟩ := by
  rw [processAdds]
  simp only [if_pos h]
  rfl

theorem processAdds_cons_notfull (T : Nat) (missing : Digest → Bool) (d : Digest)
    (nid : Nat) (rest : List (Digest × Nat)) (st : FilterSt)
    (h : ¬T ≤ st.queue.length) :
    processAdds T missing ((d, nid) :: rest) st =
      processAdds T missing rest ⟨appendA d nid st.queue, st.calls, st.removed⟩ := by
  rw [processAdds]
  simp only [if_neg h]

/-- The batching arithmetic of the filter: starting from a queue holding at
most `T` fresh digests, every intermediate flush submits exactly `T`
digests, so the number of FindMissing calls issued and the digests left in
the queue account exactly for every digest added. -/
theorem processAdds_spec (T : Nat) (hT : 0 < T) (missing : Digest → Bool) :
    ∀ (l : List (Digest × Nat)) (st : FilterSt),
      (st.queue.map Prod.fst ++ l.map Prod.fst).Nodup →
      st.queue.length ≤ T →
      ∃ k, (processAdds T missing l st).calls.length = st.calls.length + k ∧
        st.queue.length + l.length = k * T + (processAdds T missing l st).queue.length ∧
        (processAdds T missing l st).queue.length ≤ T ∧
        (0 < st.queue.length + l.length → 0 < (processAdds T missing l st).queue.length) := by
  intro l
  induction l with
  | nil =>
    intro st hnd hle
    exact ⟨0, by simp [processAdds], by simp [processAdds], by simpa [processAdds] using hle,
      by simp [processAdds]⟩
  | cons hd rest ih =>
    obtain ⟨d, nid⟩ := hd
    intro st hnd hle
    simp only [List.map_cons] at hnd
    by_cases hfull : T ≤ st.queue.length
    · rw [processAdds_cons_full T missing d nid rest st hfull]
      have hq : st.queue.length = T := le_antisymm hle hfull
      have hr : (d :: rest.map Prod.fst).Nodup := (List.nodup_append.mp hnd).2.1
      have hnd2 : (([(d, [nid])] : List (Digest × List Nat)).map Prod.fst ++
          rest.map Prod.fst).Nodup := by simpa using hr
      have hle2 : ([(d, [nid])] : List (Digest × List Nat)).length ≤ T := by
        show 1 ≤ T
        omega
      obtain ⟨k', h1, h2, h3, h4⟩ := ih
        ⟨[(d, [nid])], st.calls ++ [st.queue.map Prod.fst],
          (findMissingAndRemove missing st).removed⟩ hnd2 hle2
      refine ⟨k' + 1, ?_, ?_, h3, fun _ => h4 (by simp)⟩
      · rw [h1]
        show _ = st.calls.length + (k' + 1)
        simp only [List.length_append, List.length_cons, List.length_nil]
        omega
      · show st.queue.length + (rest.length + 1) = (k' + 1) * T + _
        rw [Nat.succ_mul]
        simp only [List.length_cons, List.length_nil] at h2
        omega
    · rw [processAdds_cons_notfull T missing d nid rest st hfull]
      have hq : st.queue.length < T := lt_of_not_ge hfull
      have hdisj := (List.nodup_append.mp hnd).2.2
      have hdfresh : d ∉ st.queue.map Prod.fst := by
        intro hmem
        exact hdisj hmem (List.mem_cons_self _ _)
      have happlen : (appendA d nid st.queue).length = st.queue.length + 1 :=
        appendA_length_fresh d nid st.queue hdfresh
      have hkeys : (appendA d nid st.queue).map Prod.fst =
          st.queue.map Prod.fst ++ [d] := appendA_keys_fresh d nid st.queue hdfresh
      have hnd2 : ((⟨appendA d nid st.queue, st.calls, st.removed⟩ : FilterSt).queue.map
          Prod.fst ++ rest.map Prod.fst).Nodup := by
        show ((appendA d nid st.queue).map Prod.fst ++ rest.map Prod.fst).Nodup
        rw [hkeys, List.append_assoc, List.singleton_append]
        exact hnd
      have hle2 : (⟨appendA d nid st.queue, st.calls, st.removed⟩ : FilterSt).queue.length ≤ T := by
        show (appendA d nid st.queue).length ≤ T
        omega
      obtain ⟨k', h1, h2, h3, h4⟩ := ih ⟨appendA d nid st.queue, st.calls, st.removed⟩ hnd2 hle2
      refine ⟨k', h1, ?_, h3, fun _ => h4 ?_⟩
      · have h2' : (appendA d nid st.queue).length + rest.length =
            k' * T + (processAdds T missing rest
              ⟨appendA d nid st.queue, st.calls, st.removed⟩).queue.length := h2
        show st.queue.length + (rest.length + 1) =
          k' * T + (processAdds T missing rest
            ⟨appendA d nid st.queue, st.calls, st.removed⟩).queue.length
        omega
      · show 0 < (appendA d nid st.queue).length + rest.length
        omega

/-- Everything queued through `processAdds` whose digest the store reports
missing ends up removed once the final batch is flushed. -/
theorem processAdds_removed_complete (T : Nat) (missing : Digest → Bool) :
    ∀ (l : List (Digest × Nat)) (st : FilterSt) (p : Digest × Nat),
      (p ∈ queueAssocs st.queue ∨ p ∈ l) → missing p.1 = true →
      p.2 ∈ (flushEnd missing (processAdds T missing l st)).removed := by
  intro l
  induction l with
  | nil =>
    intro st p hp hmiss
    rcases hp with hp | hp
    · rw [show processAdds T missing [] st = st from rfl, flushEnd,
        if_pos (queueAssocs_pos hp)]
      exact (fmr_removed_mem missing st p.2).mpr (.inr ⟨p, hp, hmiss, rfl⟩)
    · cases hp
  | cons hd rest ih =>
    obtain ⟨d, nid⟩ := hd
    intro st p hp hmiss
    by_cases hfull : T ≤ st.queue.length
    · rw [processAdds_cons_full T missing d nid rest st hfull]
      rcases hp with hp | hp
      · -- the association was flushed just now: removed, and removal is stable
        refine removed_mono_flushEnd missing _ _ (removed_mono_processAdds T missing rest _ _ ?_)
        show p.2 ∈ (findMissingAndRemove missing st).removed
        exact (fmr_removed_mem missing st p.2).mpr (.inr ⟨p, hp, hmiss, rfl⟩)
      · rcases List.mem_cons.mp hp with rfl | hp'
        · refine ih _ (d, nid) (.inl ?_) hmiss
          show (d, nid) ∈ queueAssocs (appendA d nid [])
          exact mem_queueAssocs_appendA_self d nid []
        · exact ih _ p (.inr hp') hmiss
    · rw [processAdds_cons_notfull T missing d nid rest st hfull]
      rcases hp with hp | hp
      · refine ih _ p (.inl ?_) hmiss
        show p ∈ queueAssocs (appendA d nid st.queue)
        exact queueAssocs_appendA_super d nid st.queue p hp
      · rcases List.mem_cons.mp hp with rfl | hp'
        · refine ih _ (d, nid) (.inl ?_) hmiss
          show (d, nid) ∈ queueAssocs (appendA d nid st.queue)
          exact mem_queueAssocs_appendA_self d nid st.queue
        · exact ih _ p (.inr hp') hmiss

/-- Everything left in the queue after `processAdds` was either there
before or came from the input list. -/
theorem processAdds_queue_sound (T : Nat) (missing : Digest → Bool) :
    ∀ (l : List (Digest × Nat)) (st : FilterSt) (p : Digest × Nat),
      p ∈ queueAssocs (processAdds T missing l st).queue →
      p ∈ queueAssocs st.queue ∨ p ∈ l := by
  intro l
  induction l with
  | nil => intro st p hp; exact .inl hp
  | cons hd rest ih =>
    obtain ⟨d, nid⟩ := hd
    intro st p hp
    by_cases hfull : T ≤ st.queue.length
    · rw [processAdds_cons_full T missing d nid rest st hfull] at hp
      rcases ih _ p hp with hp' | hp'
      · have := queueAssocs_appendA_sub d nid [] p
          (by simpa using hp')
        rcases this with rfl | habs
        · exact .inr (List.mem_cons_self _ _)
        · cases (by simpa [queueAssocs] using habs : False)
      · exact .inr (List.mem_cons_of_mem _ hp')
    · rw [processAdds_cons_notfull T missing d nid rest st hfull] at hp
      rcases ih _ p hp with hp' | hp'
      · rcases queueAssocs_appendA_sub d nid st.queue p hp' with rfl | hkeep
        · exact .inr (List.mem_cons_self _ _)
        · exact .inl hkeep
      · exact .inr (List.mem_cons_of_mem _ hp')

/-- Every removal performed by `processAdds` is justified: the node was
queued under a digest the store reported missing. -/
theorem processAdds_removed_sound (T : Nat) (missing : Digest → Bool) :
    ∀ (l : List (Digest × Nat)) (st : FilterSt) (x : Nat),
      x ∈ (processAdds T missing l st).removed →
      x ∈ st.removed ∨ ∃ p, (p ∈ queueAssocs st.queue ∨ p ∈ l) ∧
        missing p.1 = true ∧ p.2 = x := by
  intro l
  induction l with
  | nil => intro st x hx; exact .inl hx
  | cons hd rest ih =>
    obtain ⟨d, nid⟩ := hd
    intro st x hx
    by_cases hfull : T ≤ st.queue.length
    · rw [processAdds_cons_full T missing d nid rest st hfull] at hx
      rcases ih _ x hx with hx' | ⟨p, hp, hmiss, hpx⟩
      · rcases (fmr_removed_mem missing st x).mp hx' with hx'' | ⟨p, hp, hmiss, hpx⟩
        · exact .inl hx''
        · exact .inr ⟨p, .inl hp, hmiss, hpx⟩
      · rcases hp with hp | hp
        · rcases queueAssocs_appendA_sub d nid [] p (by simpa using hp) with rfl | habs
          · exact .inr ⟨(d, nid), .inr (List.mem_cons_self _ _), hmiss, hpx⟩
          · cases (by simpa [queueAssocs] using habs : False)
        · exact .inr ⟨p, .inr (List.mem_cons_of_mem _ hp), hmiss, hpx⟩
    · rw [processAdds_cons_notfull T missing d nid rest st hfull] at hx
      rcases ih _ x hx with hx' | ⟨p, hp, hmiss, hpx⟩
      · exact .inl hx'
      · rcases hp with hp | hp
        · rcases queueAssocs_appendA_sub d nid st.queue p hp with rfl | hkeep
          · exact .inr ⟨(d, nid), .inr (List.mem_cons_self _ _), hmiss, hpx⟩
          · exact .inr ⟨p, .inl hkeep, hmiss, hpx⟩
        · exact .inr ⟨p, .inr (List.mem_cons_of_mem _ hp), hmiss, hpx⟩

/-- The removal set of the whole filtering pass, when every node passes
the instance-name/digest-function check and no directory reports
NotFound: exactly the nodes queued under a digest the store reported
missing. -/
theorem filter_removed_iff (T fn : Nat) (missing : Digest → Bool)
    (nodes : List (Nat × FNode))
    (hgood : ∀ node ∈ nodes, ∃ ds, node.2.closure = some ds ∧
      ∀ d ∈ ds, d.usesDigestFunction fn = true) :
    ∀ x, x ∈ (filterMissingChildren T fn missing nodes).removed ↔
      ∃ p ∈ nodePairs nodes, missing p.1 = true ∧ p.2 = x := by
  intro x
  rw [filterMissingChildren_eq_flushEnd,
    foldl_filterStep_eq T fn missing nodes ⟨[], [], []⟩ hgood]
  constructor
  · intro hx
    rw [flushEnd] at hx
    by_cases hq : 0 < (processAdds T missing (nodePairs nodes) ⟨[], [], []⟩).queue.length
    · rw [if_pos hq] at hx
      rcases (fmr_removed_mem missing _ x).mp hx with hx' | ⟨p, hp, hmiss, hpx⟩
      · rcases processAdds_removed_sound T missing _ _ x hx' with habs | ⟨p, hp, hmiss, hpx⟩
        · cases habs
        · rcases hp with hp | hp
          · cases (by simpa [queueAssocs] using hp : False)
          · exact ⟨p, hp, hmiss, hpx⟩
      · rcases processAdds_queue_sound T missing _ _ p hp with habs | hp'
        · cases (by simpa [queueAssocs] using habs : False)
        · exact ⟨p, hp', hmiss, hpx⟩
    · rw [if_neg hq] at hx
      rcases processAdds_removed_sound T missing _ _ x hx with habs | ⟨p, hp, hmiss, hpx⟩
      · cases habs
      · rcases hp with hp | hp
        · cases (by simpa [queueAssocs] using hp : False)
        · exact ⟨p, hp, hmiss, hpx⟩
  · rintro ⟨p, hp, hmiss, rfl⟩
    exact processAdds_removed_complete T missing _ ⟨[], [], []⟩ p (.inr hp) hmiss

/-- The number of FindMissing calls issued by the whole pass, when every
digest queued is distinct: `ceil(N / T)` for `N` queued digests. -/
theorem filter_calls_count (T fn : Nat) (hT : 0 < T) (missing : Digest → Bool)
    (nodes : List (Nat × FNode))
    (hgood : ∀ node ∈ nodes, ∃ ds, node.2.closure = some ds ∧
      ∀ d ∈ ds, d.usesDigestFunction fn = true)
    (hnd : ((nodePairs nodes).map Prod.fst).Nodup) :
    (filterMissingChildren T fn missing nodes).calls.length =
      ((nodePairs nodes).length + T - 1) / T := by
  rw [filterMissingChildren_eq_flushEnd,
    foldl_filterStep_eq T fn missing nodes ⟨[], [], []⟩ hgood]
  obtain ⟨k, h1, h2, h3, h4⟩ := processAdds_spec T hT missing (nodePairs nodes)
    ⟨[], [], []⟩ (by simpa using hnd) (by show 0 ≤ T; omega)
  simp only [List.length_nil, Nat.zero_add] at h1 h2 h4
  rw [flushEnd]
  by_cases hq : 0 < (processAdds T missing (nodePairs nodes) ⟨[], [], []⟩).queue.length
  · rw [if_pos hq, fmr_calls]
    rw [List.length_append, h1]
    show k + 1 = _
    have hsplit : (nodePairs nodes).length + T - 1 =
        ((processAdds T missing (nodePairs nodes) ⟨[], [], []⟩).queue.length - 1) +
          (k + 1) * T := by
      rw [Nat.succ_mul]
      omega
    rw [hsplit, Nat.add_mul_div_right _ _ hT,
      Nat.div_eq_of_lt (by omega : (processAdds T missing (nodePairs nodes)
        ⟨[], [], []⟩).queue.length - 1 < T)]
    omega
  · rw [if_neg hq, h1]
    have hqz : (processAdds T missing (nodePairs nodes) ⟨[], [], []⟩).queue.length = 0 := by
      omega
    have hN : (nodePairs nodes).length = 0 := by
      by_contra hne
      exact hq (h4 (by omega))
    have hk : k = 0 := by
      rw [hqz, hN] at h2
      rcases Nat.mul_eq_zero.mp h2.symm with h | h
      · exact h
      · omega
    rw [hk, hN, Nat.div_eq_of_lt (by omega : 0 + T - 1 < T)]

theorem removed_mono_filterStep (T fn : Nat) (missing : Digest → Bool)
    (st : FilterSt) (node : Nat × FNode) (x : Nat) (h : x ∈ st.removed) :
    x ∈ (filterStep T fn missing st node).removed := by
  rw [filterStep]
  split
  · exact List.mem_append_left _ h
  · split
    · exact List.mem_append_left _ h
    · rw [queueNodeDigests_eq_processAdds]
      exact removed_mono_processAdds T missing _ st x h

theorem removed_mono_foldl (T fn : Nat) (missing : Digest → Bool) :
    ∀ (nodes : List (Nat × FNode)) (st : FilterSt) (x : Nat), x ∈ st.removed →
      x ∈ (nodes.foldl (filterStep T fn missing) st).removed
  | [], _, _, h => h
  | node :: rest, st, x, h => by
    rw [List.foldl_cons]
    exact removed_mono_foldl T fn missing rest _ x
      (removed_mono_filterStep T fn missing st node x h)

theorem filterStep_mismatch_removed (T fn : Nat) (missing : Digest → Bool)
    (st : FilterSt) (node : Nat × FNode) (ds : List Digest)
    (hcl : node.2.closure = some ds)
    (hbad : ∃ d ∈ ds, d.usesDigestFunction fn = false) :
    node.1 ∈ (filterStep T fn missing st node).removed := by
  have hany : ds.any (fun d => !d.usesDigestFunction fn) = true := by
    obtain ⟨d, hd, hf⟩ := hbad
    rw [List.any_eq_true]
    exact ⟨d, hd, by rw [hf]; rfl⟩
  simp only [filterStep, hcl, hany, if_true]
  exact List.mem_append_right _ (List.mem_singleton.mpr rfl)

theorem foldl_mismatch_removed (T fn : Nat) (missing : Digest → Bool) :
    ∀ (nodes : List (Nat × FNode)) (st : FilterSt) (node : Nat × FNode),
      node ∈ nodes → ∀ ds, node.2.closure = some ds →
      (∃ d ∈ ds, d.usesDigestFunction fn = false) →
      node.1 ∈ (nodes.foldl (filterStep T fn missing) st).removed
  | n :: rest, st, node, hmem, ds, hcl, hbad => by
    rw [List.foldl_cons]
    rcases List.mem_cons.mp hmem with rfl | hmem'
    · exact removed_mono_foldl T fn missing rest _ _
        (filterStep_mismatch_removed T fn missing st node ds hcl hbad)
    · exact foldl_mismatch_removed T fn missing rest _ node hmem' ds hcl hbad

theorem appendA_mem_key (d : Digest) (v : Nat) :
    ∀ (q : List (Digest × List Nat)) (p : Digest × List Nat),
      p ∈ appendA d v q → p.1 = d ∨ p.1 ∈ q.map Prod.fst
  | [], p, hp => by
    rw [show appendA d v [] = [(d, [v])] from rfl, List.mem_singleton] at hp
    exact .inl (by rw [hp])
  | (k, vs) :: t, p, hp => by
    rw [appendA] at hp
    by_cases hk : k = d
    · rw [if_pos hk] at hp
      rcases List.mem_cons.mp hp with rfl | hp'
      · exact .inl hk
      · exact .inr (by rw [List.map_cons]; exact List.mem_cons_of_mem _ (List.mem_map_of_mem _ hp'))
    · rw [if_neg hk] at hp
      rcases List.mem_cons.mp hp with rfl | hp'
      · exact .inr (by rw [List.map_cons]; exact List.mem_cons_self _ _)
      · rcases appendA_mem_key d v t p hp' with h | h
        · exact .inl h
        · exact .inr (by rw [List.map_cons]; exact List.mem_cons_of_mem _ h)

theorem queueNodeDigests_ok (T : Nat) (missing : Digest → Bool) (nid fn : Nat) :
    ∀ (ds : List Digest) (st : FilterSt),
      (∀ d ∈ ds, d.usesDigestFunction fn = true) →
      (∀ p ∈ st.queue, p.1.usesDigestFunction fn = true) →
      (∀ c ∈ st.calls, ∀ d ∈ c, d.usesDigestFunction fn = true) →
      (∀ p ∈ (queueNodeDigests T missing nid ds st).queue,
        p.1.usesDigestFunction fn = true) ∧
      (∀ c ∈ (queueNodeDigests T missing nid ds st).calls, ∀ d ∈ c,
        d.usesDigestFunction fn = true)
  | [], st, _, hq, hc => ⟨hq, hc⟩
  | d :: ds, st, hds, hq, hc => by
    rw [queueNodeDigests]
    by_cases hfull : T ≤ st.queue.length
    · simp only [if_pos hfull]
      refine queueNodeDigests_ok T missing nid fn ds _
        (fun d' hd' => hds d' (List.mem_cons_of_mem _ hd')) ?_ ?_
      · intro p hp
        rcases appendA_mem_key d nid _ p hp with hpd | hpk
        · rw [hpd]
          exact hds d (List.mem_cons_self _ _)
        · cases (by simpa using hpk : False)
      · intro c hcm
        rcases List.mem_append.mp hcm with hcm' | hcm'
        · exact hc c hcm'
        · rw [List.mem_singleton] at hcm'
          subst hcm'
          intro d' hd'
          rw [List.mem_map] at hd'
          obtain ⟨p, hp, rfl⟩ := hd'
          exact hq p hp
    · simp only [if_neg hfull]
      refine queueNodeDigests_ok T missing nid fn ds _
        (fun d' hd' => hds d' (List.mem_cons_of_mem _ hd')) ?_ hc
      intro p hp
      rcases appendA_mem_key d nid _ p hp with hpd | hpk
      · rw [hpd]
        exact hds d (List.mem_cons_self _ _)
      · rw [List.mem_map] at hpk
        obtain ⟨p', hp', hpeq⟩ := hpk
        rw [← hpeq]
        exact hq p' hp'

theorem filterStep_ok (T fn : Nat) (missing : Digest → Bool)
    (st : FilterSt) (node : Nat × FNode)
    (hq : ∀ p ∈ st.queue, p.1.usesDigestFunction fn = true)
    (hc : ∀ c ∈ st.calls, ∀ d ∈ c, d.usesDigestFunction fn = true) :
    (∀ p ∈ (filterStep T fn missing st node).queue,
      p.1.usesDigestFunction fn = true) ∧
    (∀ c ∈ (filterStep T fn missing st node).calls, ∀ d ∈ c,
      d.usesDigestFunction fn = true) := by
  rw [filterStep]
  split
  · exact ⟨hq, hc⟩
  · next ds hcl =>
    split
    · exact ⟨hq, hc⟩
    · next hnotany =>
      have hfalse : ds.any (fun d => !d.usesDigestFunction fn) = false := by
        simpa using hnotany
      have hall : ∀ d ∈ ds, d.usesDigestFunction fn = true := by
        intro d hd
        have := List.any_eq_false.mp hfalse d hd
        simpa using this
      exact queueNodeDigests_ok T missing node.1 fn ds st hall hq hc

theorem foldl_ok (T fn : Nat) (missing : Digest → Bool) :
    ∀ (nodes : List (Nat × FNode)) (st : FilterSt),
      (∀ p ∈ st.queue, p.1.usesDigestFunction fn = true) →
      (∀ c ∈ st.calls, ∀ d ∈ c, d.usesDigestFunction fn = true) →
      (∀ p ∈ (nodes.foldl (filterStep T fn missing) st).queue,
        p.1.usesDigestFunction fn = true) ∧
      (∀ c ∈ (nodes.foldl (filterStep T fn missing) st).calls, ∀ d ∈ c,
        d.usesDigestFunction fn = true)
  | [], _, hq, hc => ⟨hq, hc⟩
  | node :: rest, st, hq, hc => by
    rw [List.foldl_cons]
    obtain ⟨hq', hc'⟩ := filterStep_ok T fn missing st node hq hc
    exact foldl_ok T fn missing rest _ hq' hc'

/-! ## Claims -/

/-- Claim C9: Registry map consistency invariant, preserved by every
operation (Clean, StartBuild, FinalizeBuild): in every reachable registry,
every build-id map entry `b ↦ s` has a non-nil `buildState` whose `id`
equals `b`, and `s` is simultaneously registered in the output-base map
under its own `outputBaseID`; consequently at most one build-id map entry
exists per output path state. -/
theorem registry_map_consistency (r : Registry) (hr : Reachable r) :
    (∀ b sid, lookupA b r.buildIDs = some sid →
      ∃ ops, lookupA sid r.arena = some ops ∧
        (∃ bs, ops.buildState = some bs ∧ bs.id = b) ∧
        lookupA ops.outputBaseID r.outputBaseIDs = some sid) ∧
    (∀ b₁ b₂ sid, lookupA b₁ r.buildIDs = some sid →
      lookupA b₂ r.buildIDs = some sid → b₁ = b₂) := by
  have h := inv_reachable r hr
  constructor
  · intro b sid hb
    obtain ⟨ops, ha, bs, hbs, hid⟩ := h.buildCons b sid hb
    exact ⟨ops, ha, ⟨bs, hbs, hid⟩, h.obCov sid ops ha⟩
  · intro b₁ b₂ sid h₁ h₂
    obtain ⟨ops₁, ha₁, bs₁, hbs₁, hid₁⟩ := h.buildCons b₁ sid h₁
    obtain ⟨ops₂, ha₂, bs₂, hbs₂, hid₂⟩ := h.buildCons b₂ sid h₂
    rw [ha₁] at ha₂
    cases ha₂
    rw [hbs₁] at hbs₂
    cases hbs₂
    rw [← hid₁, ← hid₂]

theorem registry_map_consistency_witness :
    Reachable regW1 ∧
    ((∀ b sid, lookupA b regW1.buildIDs = some sid →
      ∃ ops, lookupA sid regW1.arena = some ops ∧
        (∃ bs, ops.buildState = some bs ∧ bs.id = b) ∧
        lookupA ops.outputBaseID regW1.outputBaseIDs = some sid) ∧
    (∀ b₁ b₂ sid, lookupA b₁ regW1.buildIDs = some sid →
      lookupA b₂ regW1.buildIDs = some sid → b₁ = b₂)) :=
  ⟨Reachable.step Reachable.init (Step.startBuild Registry.initial "b1" "ob1" 0 0),
   registry_map_consistency regW1
     (Reachable.step Reachable.init (Step.startBuild Registry.initial "b1" "ob1" 0 0))⟩

/-- Claim C5: FinalizeBuild is idempotent: on a reachable registry, a
FinalizeBuild for an unknown build id returns empty success leaving the
registry untouched, and for any build id the first call succeeds and a
second call with the same id succeeds again, leaving the registry exactly
as after the first call. -/
theorem finalizeBuild_idempotent (r : Registry) (b : String) (hr : Reachable r) :
    (lookupA b r.buildIDs = none → finalizeBuild r b = some r) ∧
    ∃ r₁, finalizeBuild r b = some r₁ ∧ finalizeBuild r₁ b = some r₁ := by
  have h := inv_reachable r hr
  refine ⟨fun hb => finalizeBuild_unknown r b hb, ?_⟩
  cases hb : lookupA b r.buildIDs with
  | none => exact ⟨r, finalizeBuild_unknown r b hb, finalizeBuild_unknown r b hb⟩
  | some sid =>
    obtain ⟨ops, ha, bs, hbs, hid⟩ := h.buildCons b sid hb
    refine ⟨_, finalizeBuild_known r b sid ops bs hb ha hbs, ?_⟩
    apply finalizeBuild_unknown
    show lookupA b (eraseA bs.id r.buildIDs) = none
    rw [lookupA_eraseA, if_pos hid.symm]

theorem finalizeBuild_idempotent_witness :
    Reachable regW1 ∧
    ((lookupA "b1" regW1.buildIDs = none → finalizeBuild regW1 "b1" = some regW1) ∧
    ∃ r₁, finalizeBuild regW1 "b1" = some r₁ ∧ finalizeBuild r₁ "b1" = some r₁) :=
  ⟨Reachable.step Reachable.init (Step.startBuild Registry.initial "b1" "ob1" 0 0),
   finalizeBuild_idempotent regW1 "b1"
     (Reachable.step Reachable.init (Step.startBuild Registry.initial "b1" "ob1" 0 0))⟩

/-- Claim C2: a second StartBuild on an output base whose previous session
`b1` was never finalized installs the new session `b2` without an error,
force-closes `b1`, and every subsequent BatchCreate or BatchStat call
using `b1` fails with FailedPrecondition. -/
theorem startBuild_force_closes_previous_session (r : Registry) (hr : Reachable r)
    (b1 b2 ob : String) (sid fn swf : Nat)
    (hb1 : lookupA b1 r.buildIDs = some sid)
    (hob : lookupA ob r.outputBaseIDs = some sid)
    (hb2 : lookupA b2 r.buildIDs = none) (hne : b2 ≠ b1) :
    lookupA b2 (startBuildLocked r b2 ob fn swf).1.buildIDs = some sid ∧
    lookupA b1 (startBuildLocked r b2 ob fn swf).1.buildIDs = none ∧
    getOutputPathAndBuildState (startBuildLocked r b2 ob fn swf).1 b1 =
      .error .failedPrecondition ∧
    (∀ maxT fetch t req,
      batchCreateModel (startBuildLocked r b2 ob fn swf).1 b1 maxT fetch t req =
        .error .failedPrecondition) ∧
    (∀ resolve paths,
      batchStatModel (startBuildLocked r b2 ob fn swf).1 b1 resolve paths =
        .error .failedPrecondition) := by
  have h := inv_reachable r hr
  obtain ⟨ops, ha, bs, hbs, hid⟩ := h.buildCons b1 sid hb1
  rw [startBuildLocked_reuse_active r b2 ob fn swf sid ops bs hb2 hob ha hbs]
  have hlook2 : lookupA b2 (insertA b2 sid (eraseA bs.id r.buildIDs)) = some sid := by
    rw [lookupA_insertA, if_pos rfl]
  have hlook1 : lookupA b1 (insertA b2 sid (eraseA bs.id r.buildIDs)) = none := by
    rw [lookupA_insertA, if_neg (fun he => hne he.symm), lookupA_eraseA, if_pos hid.symm]
  have hgate : getOutputPathAndBuildState
      ({ r with
        arena := updateA sid (fun o => { o with buildState := some ⟨b2, fn, swf⟩ })
          (updateA sid (fun o => { o with buildState := none }) r.arena)
        buildIDs := insertA b2 sid (eraseA bs.id r.buildIDs) } : Registry) b1 =
      .error .failedPrecondition := by
    rw [getOutputPathAndBuildState]
    simp only [hlook1]
  refine ⟨hlook2, hlook1, hgate, ?_, ?_⟩
  · intro maxT fetch t req
    rw [batchCreateModel]
    simp only [hgate]
  · intro resolve paths
    rw [batchStatModel]
    simp only [hgate]

theorem startBuild_force_closes_previous_session_witness :
    Reachable regW1 ∧ lookupA "b1" regW1.buildIDs = some 0 ∧
    lookupA "ob1" regW1.outputBaseIDs = some 0 ∧
    lookupA "b2" regW1.buildIDs = none ∧ "b2" ≠ "b1" ∧
    (lookupA "b2" (startBuildLocked regW1 "b2" "ob1" 0 0).1.buildIDs = some 0 ∧
    lookupA "b1" (startBuildLocked regW1 "b2" "ob1" 0 0).1.buildIDs = none ∧
    getOutputPathAndBuildState (startBuildLocked regW1 "b2" "ob1" 0 0).1 "b1" =
      .error .failedPrecondition ∧
    (∀ maxT fetch t req,
      batchCreateModel (startBuildLocked regW1 "b2" "ob1" 0 0).1 "b1" maxT fetch t req =
        .error .failedPrecondition) ∧
    (∀ resolve paths,
      batchStatModel (startBuildLocked regW1 "b2" "ob1" 0 0).1 "b1" resolve paths =
        .error .failedPrecondition)) :=
  ⟨Reachable.step Reachable.init (Step.startBuild Registry.initial "b1" "ob1" 0 0),
   rfl, rfl, rfl, by decide,
   startBuild_force_closes_previous_session regW1
     (Reachable.step Reachable.init (Step.startBuild Registry.initial "b1" "ob1" 0 0))
     "b1" "b2" "ob1" 0 0 0 rfl rfl rfl (by decide)⟩

/-- Claim C10: a StartBuild whose build id is already registered leaves the
registry — maps, ring, change counter and the stored BuildState — exactly
unchanged, and its only effect is the missing-blob filtering pass, run
with the digest function parsed from the new request. -/
theorem startBuild_known_buildID_frame (r : Registry) (b ob : String)
    (fn swf sid T : Nat) (missing : Digest → Bool) (tree : List (Nat × FNode))
    (hb : lookupA b r.buildIDs = some sid) :
    startBuildModel r b ob fn swf T missing tree =
      (r, sid, filterMissingChildren T fn missing tree) := by
  rw [startBuildModel, startBuildLocked_found r b ob fn swf sid hb]

theorem startBuild_known_buildID_frame_witness :
    lookupA "b1" regW1.buildIDs = some 0 ∧
    startBuildModel regW1 "b1" "obX" 5 7 3 missingW3 nodesW3 =
      (regW1, 0, filterMissingChildren 3 5 missingW3 nodesW3) :=
  ⟨rfl, startBuild_known_buildID_frame regW1 "b1" "obX" 5 7 0 3 missingW3 nodesW3 rfl⟩

/-- Claim C4: over any sequence of registry creations and removals, cookies
are strictly increasing along the enumeration ring and never reused
(surviving entries keep their cookie; entries created later carry cookies
strictly above every cookie assigned earlier), and enumeration resumed from
any cookie previously reported by VirtualReadDir reports no entry twice
(everything it reports has cookie at or past the resume point) and omits no
entry that existed and still exists. -/
theorem registry_cookie_contract (r r' : Registry) (hr : Reachable r)
    (hs : StepStar r r') :
    ((ringCookies r).Pairwise (· < ·) ∧ (ringCookies r').Pairwise (· < ·)) ∧
    (∀ sid ops ops', lookupA sid r.arena = some ops →
      lookupA sid r'.arena = some ops' → ops'.cookie = ops.cookie) ∧
    (∀ sid ops', lookupA sid r'.arena = some ops' → lookupA sid r.arena = none →
      ∀ sid₀ ops₀, lookupA sid₀ r.arena = some ops₀ → ops₀.cookie < ops'.cookie) ∧
    (∀ rc, (∃ e ∈ virtualReadDir r 0, e.reported = rc) →
      (∀ e' ∈ virtualReadDir r' rc, rc ≤ e'.cookie) ∧
      (∀ sid ops ops', lookupA sid r.arena = some ops → rc ≤ ops.cookie →
        sid ∈ r'.ring → lookupA sid r'.arena = some ops' →
        ∃ e' ∈ virtualReadDir r' rc, e'.sid = sid ∧ e'.cookie = ops.cookie)) := by
  have hI := inv_reachable r hr
  have hI' := inv_stepStar r r' hI hs
  obtain ⟨hc, hn, hf⟩ := frame_stepStar r r' hI hs
  have persist : ∀ sid ops ops', lookupA sid r.arena = some ops →
      lookupA sid r'.arena = some ops' → ops'.cookie = ops.cookie := by
    intro sid ops ops' h1 h2
    rcases hf sid ops' h2 with ⟨ops₀, h0, hck, _⟩ | ⟨hsid, _⟩
    · rw [h0] at h1
      cases h1
      exact hck
    · exact absurd (hI.arenaLtNext sid ops h1) (by omega)
  refine ⟨⟨hI.ringSorted, hI'.ringSorted⟩, persist, ?_, ?_⟩
  · intro sid ops' h2 h1 sid₀ ops₀ h0
    rcases hf sid ops' h2 with ⟨ops₁, h1', _, _⟩ | ⟨hsid, hck⟩
    · rw [h1'] at h1
      cases h1
    · have := hI.cookieLt sid₀ ops₀ h0
      omega
  · intro rc _
    refine ⟨virtualReadDir_ge r' hI' rc, ?_⟩
    intro sid ops ops' h1 hge hring h2
    have hck := persist sid ops ops' h1 h2
    obtain ⟨e, he, hsid, hcook, _⟩ :=
      virtualReadDir_of_ge r' rc sid ops' hring h2 (by omega)
    exact ⟨e, he, hsid, by omega⟩

theorem registry_cookie_contract_witness :
    Reachable regW1 ∧ StepStar regW1 regW2 ∧
    (((ringCookies regW1).Pairwise (· < ·) ∧ (ringCookies regW2).Pairwise (· < ·)) ∧
    (∀ sid ops ops', lookupA sid regW1.arena = some ops →
      lookupA sid regW2.arena = some ops' → ops'.cookie = ops.cookie) ∧
    (∀ sid ops', lookupA sid regW2.arena = some ops' →
      lookupA sid regW1.arena = none →
      ∀ sid₀ ops₀, lookupA sid₀ regW1.arena = some ops₀ →
        ops₀.cookie < ops'.cookie) ∧
    (∀ rc, (∃ e ∈ virtualReadDir regW1 0, e.reported = rc) →
      (∀ e' ∈ virtualReadDir regW2 rc, rc ≤ e'.cookie) ∧
      (∀ sid ops ops', lookupA sid regW1.arena = some ops → rc ≤ ops.cookie →
        sid ∈ regW2.ring → lookupA sid regW2.arena = some ops' →
        ∃ e' ∈ virtualReadDir regW2 rc, e'.sid = sid ∧ e'.cookie = ops.cookie))) :=
  ⟨Reachable.step Reachable.init (Step.startBuild Registry.initial "b1" "ob1" 0 0),
   StepStar.tail (StepStar.refl regW1) (Step.startBuild regW1 "b2" "ob2" 0 0),
   registry_cookie_contract regW1 regW2
     (Reachable.step Reachable.init (Step.startBuild Registry.initial "b1" "ob1" 0 0))
     (StepStar.tail (StepStar.refl regW1) (Step.startBuild regW1 "b2" "ob2" 0 0))⟩

/-- Claim C6: a path whose resolution takes more `OnUp` steps than there are
directories on the stack above the output path root is not an error for
the stat walker — it reports an External status and hands resolution to
the void walker — while both creating walkers reject it with
InvalidArgument. -/
theorem walker_escape_policy (top : List Nat) (bottom : Nat)
    (fs : FileStatusShape) (n : Nat) (h : top.length < n) :
    (statWalkerUps n ⟨⟨top, bottom⟩, fs, false⟩).fileStatus = .external ∧
    (statWalkerUps n ⟨⟨top, bottom⟩, fs, false⟩).voided = true ∧
    directoryCreatingUps n ⟨top, bottom⟩ = .error .invalidArgument ∧
    parentDirectoryCreatingUps n ⟨top, bottom⟩ = .error .invalidArgument := by
  rw [statWalkerUps_escape n top bottom fs h]
  exact ⟨rfl, rfl, directoryCreatingUps_escape n top bottom h,
    parentDirectoryCreatingUps_escape n top bottom h⟩

theorem walker_escape_policy_witness :
    ([5] : List Nat).length < 2 ∧
    ((statWalkerUps 2 ⟨⟨[5], 0⟩, .directory, false⟩).fileStatus = .external ∧
    (statWalkerUps 2 ⟨⟨[5], 0⟩, .directory, false⟩).voided = true ∧
    directoryCreatingUps 2 ⟨[5], 0⟩ = .error .invalidArgument ∧
    parentDirectoryCreatingUps 2 ⟨[5], 0⟩ = .error .invalidArgument) :=
  ⟨by decide, walker_escape_policy [5] 0 .directory 2 (by decide)⟩

/-- Claim C7: a BatchStat call that returns successfully contains exactly
one result per requested path, in request order, and a path that does not
exist yields an empty result rather than an error. -/
theorem batchStat_one_response_per_path (r : Registry) (buildID : String)
    (resolve : String → StatOutcome) (paths : List String)
    (rs : List StatResponse)
    (h : batchStatModel r buildID resolve paths = .ok rs) :
    rs.length = paths.length ∧
    ∀ (i : Nat) (p : String), paths[i]? = some p →
      (resolve p = .enoent → rs[i]? = some StatResponse.empty) ∧
      (∀ fs, resolve p = .found fs → rs[i]? = some (StatResponse.status fs)) := by
  rw [batchStatModel] at h
  split at h
  · cases h
  · split at h
    · cases h
    · rename_i rs' hloop
      cases h
      exact batchStatLoop_spec resolve paths rs hloop

theorem batchStat_one_response_per_path_witness :
    batchStatModel regW1 "b1" (fun _ => .enoent) ["a", "b"] =
      .ok [StatResponse.empty, StatResponse.empty] ∧
    (([StatResponse.empty, StatResponse.empty] : List StatResponse).length =
      (["a", "b"] : List String).length ∧
    ∀ (i : Nat) (p : String), (["a", "b"] : List String)[i]? = some p →
      ((fun _ => StatOutcome.enoent) p = .enoent →
        ([StatResponse.empty, StatResponse.empty] : List StatResponse)[i]? =
          some StatResponse.empty) ∧
      (∀ fs, (fun _ => StatOutcome.enoent) p = .found fs →
        ([StatResponse.empty, StatResponse.empty] : List StatResponse)[i]? =
          some (StatResponse.status fs))) :=
  ⟨rfl, batchStat_one_response_per_path regW1 "b1" (fun _ => .enoent) ["a", "b"]
    [StatResponse.empty, StatResponse.empty] rfl⟩

/-- Claim C8: during the missing-blob filtering pass, every node whose digest
closure contains a digest produced under a different instance name or
digest function is removed, whatever the store would answer, and no digest
with a foreign instance name or digest function is ever submitted to
FindMissing. -/
theorem filter_cross_digest_function_removal (T fn : Nat)
    (missing : Digest → Bool) (nodes : List (Nat × FNode)) :
    (∀ node ∈ nodes, ∀ ds, node.2.closure = some ds →
      (∃ d ∈ ds, d.usesDigestFunction fn = false) →
      node.1 ∈ (filterMissingChildren T fn missing nodes).removed) ∧
    (∀ c ∈ (filterMissingChildren T fn missing nodes).calls, ∀ d ∈ c,
      d.usesDigestFunction fn = true) := by
  rw [filterMissingChildren_eq_flushEnd]
  obtain ⟨hq, hc⟩ := foldl_ok T fn missing nodes ⟨[], [], []⟩
    (by intro p hp; cases hp) (by intro c hcm; cases hcm)
  constructor
  · intro node hmem ds hcl hbad
    exact removed_mono_flushEnd missing _ _
      (foldl_mismatch_removed T fn missing nodes ⟨[], [], []⟩ node hmem ds hcl hbad)
  · intro c hcm d hd
    rw [flushEnd] at hcm
    by_cases hqp : 0 < (nodes.foldl (filterStep T fn missing) ⟨[], [], []⟩).queue.length
    · rw [if_pos hqp, fmr_calls] at hcm
      rcases List.mem_append.mp hcm with hcm' | hcm'
      · exact hc c hcm' d hd
      · rw [List.mem_singleton] at hcm'
        subst hcm'
        rw [List.mem_map] at hd
        obtain ⟨p, hp, rfl⟩ := hd
        exact hq p hp
    · rw [if_neg hqp] at hcm
      exact hc c hcm d hd

theorem filter_cross_digest_function_removal_witness :
    ((0, FNode.leaf [⟨1, 0, 0⟩]) ∈
      ([(0, FNode.leaf [⟨1, 0, 0⟩]), (1, FNode.leaf [⟨0, 5, 0⟩])] :
        List (Nat × FNode)) ∧
    FNode.closure (FNode.leaf [⟨1, 0, 0⟩]) = some [⟨1, 0, 0⟩] ∧
    (∃ d ∈ ([⟨1, 0, 0⟩] : List Digest), d.usesDigestFunction 0 = false)) ∧
    0 ∈ (filterMissingChildren 2 0 (fun _ => false)
      [(0, FNode.leaf [⟨1, 0, 0⟩]), (1, FNode.leaf [⟨0, 5, 0⟩])]).removed ∧
    (∀ c ∈ (filterMissingChildren 2 0 (fun _ => false)
      [(0, FNode.leaf [⟨1, 0, 0⟩]), (1, FNode.leaf [⟨0, 5, 0⟩])]).calls, ∀ d ∈ c,
      d.usesDigestFunction 0 = true) :=
  ⟨⟨List.mem_cons_self _ _, rfl, by decide⟩,
   (filter_cross_digest_function_removal 2 0 (fun _ => false)
      [(0, FNode.leaf [⟨1, 0, 0⟩]), (1, FNode.leaf [⟨0, 5, 0⟩])]).1
     (0, FNode.leaf [⟨1, 0, 0⟩]) (List.mem_cons_self _ _) [⟨1, 0, 0⟩] rfl (by decide),
   (filter_cross_digest_function_removal 2 0 (fun _ => false)
      [(0, FNode.leaf [⟨1, 0, 0⟩]), (1, FNode.leaf [⟨0, 5, 0⟩])]).2⟩

/-- Claim C3, counterexample to the claim as stated: two retained nodes
sharing a digest.  The tree retains N = 2 distinct digests, the threshold
is T = 2, yet the pass issues 2 FindMissing calls, not ceil(2/2) = 1: the
shared digest is queued again after the intermediate flush and is
submitted a second time. -/
theorem filter_batches_counterexample :
    ((nodePairs cexNodes).map Prod.fst).dedup.length = 2 ∧
    (filterMissingChildren 2 0 (fun _ => false) cexNodes).calls.length = 2 ∧
    ¬(filterMissingChildren 2 0 (fun _ => false) cexNodes).calls.length =
      (((nodePairs cexNodes).map Prod.fst).dedup.length + 2 - 1) / 2 := by
  refine ⟨by decide, by decide, by decide⟩

/-- Claim C3, amended: when the digests of the retained nodes are pairwise
distinct (no two nodes share a digest), a pass over a tree retaining N
digests with batch threshold T issues exactly ceil(N/T) FindMissing calls,
and removes exactly those nodes for which some digest in their closure was
reported missing — one missing digest removing every node queued under
it. -/
theorem filter_batches_spec (T fn : Nat) (hT : 0 < T) (missing : Digest → Bool)
    (nodes : List (Nat × FNode))
    (hgood : ∀ node ∈ nodes, ∃ ds, node.2.closure = some ds ∧
      ∀ d ∈ ds, d.usesDigestFunction fn = true)
    (hnd : ((nodePairs nodes).map Prod.fst).Nodup) :
    (filterMissingChildren T fn missing nodes).calls.length =
      ((nodePairs nodes).length + T - 1) / T ∧
    ∀ x, x ∈ (filterMissingChildren T fn missing nodes).removed ↔
      ∃ p ∈ nodePairs nodes, missing p.1 = true ∧ p.2 = x :=
  ⟨filter_calls_count T fn hT missing nodes hgood hnd,
   filter_removed_iff T fn missing nodes hgood⟩

theorem filter_batches_spec_witness :
    (0 < 2 ∧
    (∀ node ∈ nodesW3, ∃ ds, node.2.closure = some ds ∧
      ∀ d ∈ ds, d.usesDigestFunction 0 = true) ∧
    ((nodePairs nodesW3).map Prod.fst).Nodup) ∧
    ((filterMissingChildren 2 0 missingW3 nodesW3).calls.length =
      ((nodePairs nodesW3).length + 2 - 1) / 2 ∧
    ∀ x, x ∈ (filterMissingChildren 2 0 missingW3 nodesW3).removed ↔
      ∃ p ∈ nodePairs nodesW3, missingW3 p.1 = true ∧ p.2 = x) :=
  ⟨⟨by decide,
    (fun node hn => by
      rcases List.mem_cons.mp hn with rfl | hn'
      · exact ⟨[⟨0, 0, 0⟩], rfl, by decide⟩
      · rcases List.mem_cons.mp hn' with rfl | hn''
        · exact ⟨[⟨0, 1, 0⟩, ⟨0, 2, 0⟩], rfl, by decide⟩
        · cases hn''),
    by decide⟩,
   filter_batches_spec 2 0 (by decide) missingW3 nodesW3
     (fun node hn => by
       rcases List.mem_cons.mp hn with rfl | hn'
       · exact ⟨[⟨0, 0, 0⟩], rfl, by decide⟩
       · rcases List.mem_cons.mp hn' with rfl | hn''
         · exact ⟨[⟨0, 1, 0⟩, ⟨0, 2, 0⟩], rfl, by decide⟩
         · cases hn'')
     (by decide)⟩

/-- Claim C1, counterexample to the claim as stated: a BatchCreate request
holding one file entry and one oversized directory entry fails with
InvalidArgument, but the file created before the size check stays in the
tree — the tree is not left as it was before the call. -/
theorem batchCreate_oversized_counterexample :
    batchCreate 10 (fun _ => []) (Node.dir []) reqW1 =
      (Node.dir [("f", Node.casFile ⟨0, 0, 1⟩ false)], some RpcError.invalidArgument) ∧
    Node.dir [("f", Node.casFile ⟨0, 0, 1⟩ false)] ≠ Node.dir [] := by
  refine ⟨rfl, fun h => ?_⟩
  injection h with h1
  exact List.cons_ne_nil _ _ h1

/-- Claim C1, amended: a BatchCreate request containing an oversized
directory entry fails with InvalidArgument the moment processing reaches
that entry; the entry itself and everything after it create nothing, while
the prefix directories, files and earlier directory entries created
earlier in the same call remain. -/
theorem batchCreate_oversized_invalidArgument (maximumTreeSizeBytes : Nat)
    (fetch : Digest → List (String × Node)) (t : Node) (req : BatchCreateRequest)
    (t₁ t₂ t₃ t₄ : Node) (pstack : NonEmptyStack (List String))
    (pre post : List OutputDirectory) (d0 : OutputDirectory)
    (hpfx : dirCreatingResolve fetch req.pathPfx t ⟨[], []⟩ = (t₁, .ok pstack))
    (hclean : (if req.cleanPathPfx then removeAllChildren t₁ pstack.peek else t₁) = t₂)
    (hfiles : bcFiles fetch pstack req.files t₂ = (t₃, none))
    (hsplit : req.directories = pre ++ d0 :: post)
    (hpre : bcDirectories maximumTreeSizeBytes fetch pstack pre t₃ = (t₄, none))
    (hbig : maximumTreeSizeBytes < d0.treeDigest.sizeBytes) :
    batchCreate maximumTreeSizeBytes fetch t req = (t₄, some RpcError.invalidArgument) := by
  rw [batchCreate]
  simp only [hpfx, hclean, hfiles, hsplit,
    bcDirectories_append maximumTreeSizeBytes fetch pstack pre (d0 :: post), hpre]
  rw [bcDirectories]
  simp only [if_pos hbig]

theorem batchCreate_oversized_invalidArgument_witness :
    (dirCreatingResolve (fun _ => []) reqW1.pathPfx (Node.dir []) ⟨[], []⟩ =
      (Node.dir [], .ok ⟨[], []⟩) ∧
    (if reqW1.cleanPathPfx then removeAllChildren (Node.dir [])
      (NonEmptyStack.peek ⟨[], []⟩) else Node.dir []) = Node.dir [] ∧
    bcFiles (fun _ => []) ⟨[], []⟩ reqW1.files (Node.dir []) =
      (Node.dir [("f", Node.casFile ⟨0, 0, 1⟩ false)], none) ∧
    reqW1.directories = [] ++ (⟨[.down "g"], ⟨0, 1, 11⟩⟩ : OutputDirectory) :: [] ∧
    bcDirectories 10 (fun _ => []) ⟨[], []⟩ []
      (Node.dir [("f", Node.casFile ⟨0, 0, 1⟩ false)]) =
      (Node.dir [("f", Node.casFile ⟨0, 0, 1⟩ false)], none) ∧
    10 < (11 : Nat)) ∧
    batchCreate 10 (fun _ => []) (Node.dir []) reqW1 =
      (Node.dir [("f", Node.casFile ⟨0, 0, 1⟩ false)], some RpcError.invalidArgument) :=
  ⟨⟨rfl, rfl, rfl, rfl, rfl, by decide⟩,
   batchCreate_oversized_invalidArgument 10 (fun _ => []) (Node.dir []) reqW1
     (Node.dir []) (Node.dir []) (Node.dir [("f", Node.casFile ⟨0, 0, 1⟩ false)])
     (Node.dir [("f", Node.casFile ⟨0, 0, 1⟩ false)]) ⟨[], []⟩
     [] [] ⟨[.down "g"], ⟨0, 1, 11⟩⟩ rfl rfl rfl rfl rfl (by decide)⟩

end BBClientd
